import Mathlib

/-!
# Dependency discovery and SSH key tasks of kops (upup/pkg/fi)

A shallow embedding of

* `upup/pkg/fi/topological_sort.go`: `FindTaskDependencies`,
  `reflectForDependencies`, `getDependencies`;
* `upup/pkg/fi/cloudup/awstasks/sshkey.go`: `SSHKey.Find`, `parseSSHPublicKey`,
  `colonSeparatedHex`, `SSHKey.CheckChanges`;

together with the properties the specification states about them.  Three parts of the
repository that these properties involve are not among the sources and are modelled from
the specification: the walk `utils.ReflectRecursive`, the sort routine that consumes the
dependency mapping, and the validation `api.DeepValidate`.
-/

namespace Kops

/-! ## Reflected Go values -/

mutual
/-- A Go value as `reflect` presents it to the dependency walk.  The constructors follow
the cases of the `switch v.Kind()` in `getDependencies`: `prim` stands for every value
on which `utils.IsPrimitiveValue` answers true, `other` for every remaining kind
(array, chan, func, ...), named by its kind.  A struct carries the name of its type and
its address, which together identify the pointer `v.Addr().Interface()` when the struct
is addressable.  Values are finite trees: a pointer or interface holds its pointee. -/
inductive Value where
  | prim : Value
  | str (s : String) : Value
  | ifaceNil : Value
  | iface (e : Value) : Value
  | ptrNil : Value
  | ptr (e : Value) : Value
  | slice (es : Values) : Value
  | map (es : Entries) : Value
  | struct (ty : String) (addr : Nat) (fs : Fields) : Value
  | other (kind : String) : Value
/-- The elements of a slice, in index order. -/
inductive Values where
  | nil : Values
  | cons (v : Value) (vs : Values) : Values
/-- The entries of a map, each key already formatted as a string. -/
inductive Entries where
  | nil : Entries
  | cons (key : String) (v : Value) (es : Entries) : Entries
/-- The exported fields of a struct, which are those the walk visits, in declaration
order. -/
inductive Fields where
  | nil : Fields
  | cons (name : String) (v : Value) (fs : Fields) : Fields
end

/-- The identity of a pointer to a struct: dynamic type and address.  Two interface
values holding pointers are equal in Go exactly when both agree. -/
structure Ref where
  ty : String
  addr : Nat
deriving DecidableEq, Repr

/-- A non-nil pointer to a struct, as held by a `Task` interface value: the dynamic type,
the address and the fields of the pointee. -/
structure StructPtr where
  ty : String
  addr : Nat
  fields : Fields

/-- The identity under which a pointer is used as a map key. -/
def StructPtr.ref (p : StructPtr) : Ref := ⟨p.ty, p.addr⟩

/-- The struct a pointer points to: `reflect.ValueOf(task).Elem()`. -/
def StructPtr.elem (p : StructPtr) : Value := .struct p.ty p.addr p.fields

/-- The task universe `map[string]Task`, listed in the order the `range` loop over it
happens to take. -/
abbrev Tasks := List (String × StructPtr)

/-- What the type assertions of `getDependencies` answer for a pointer to a struct of a
given type.  `getDependencies` is the method of the `HasDependencies` interface when the
type has one. -/
structure TypeInfo where
  getDependencies : Option (StructPtr → Tasks → List StructPtr)
  isTask : Bool
  isResource : Bool
  isResourceHolder : Bool
  isPkixName : Bool

/-- The type declarations of the program, by type name. -/
abbrev Types := String → TypeInfo

/-! ## The recursive walk -/

/-- The errors the visitor of `getDependencies` returns. -/
inductive WalkError where
  | unhandledType (path : String) (ty : String) : WalkError
  | unhandledKind (path : String) (kind : String) : WalkError
deriving DecidableEq, Repr

/-- What a call of the visitor ends in: it returns `nil`, `utils.SkipReflection` or
another error, or it panics. -/
inductive Verdict where
  | nil : Verdict
  | SkipReflection : Verdict
  | err (e : WalkError) : Verdict
  | panic : Verdict
deriving DecidableEq, Repr

/-- How the walk ends without a result: with the error a visitor returned, or with the
panic of a visitor at the value of the given path. -/
inductive Abort where
  | error (e : WalkError) : Abort
  | panic (path : String) : Abort
deriving DecidableEq, Repr

mutual
/-- Modelled from the spec: `utils.ReflectRecursive` is not among the sources.  It calls
the visitor on the value and on every value below it (fields of a struct, entries of a
map, elements of a slice, the pointee of a pointer or interface), does not descend below
a value on which the visitor returns `SkipReflection`, and stops with the first other
error; a panic of the visitor ends the walk as well.  The root has the empty path; a
field, entry or element extends the path of its parent, the pointee of a pointer or
interface keeps it.  The flag `canAddr` is what `reflect` records of the value handed to
the visitor (`v.CanAddr()`): a field is addressable when its struct is, an element of a
slice and the pointee of a pointer are addressable, an entry of a map and the value held
by an interface are not.  The visitor's captured variables are the state `σ`. -/
def reflectRecursive {σ : Type} (visitor : σ → String → Bool → Value → Verdict × σ)
    (path : String) (canAddr : Bool) (v : Value) (s : σ) : Except Abort σ :=
  match visitor s path canAddr v with
  | (.panic, _) => .error (.panic path)
  | (.err e, _) => .error (.error e)
  | (.SkipReflection, s1) => .ok s1
  | (.nil, s1) =>
    match v with
    | .struct _ _ fs => reflectFields visitor path canAddr fs s1
    | .map es => reflectEntries visitor path es s1
    | .slice es => reflectElems visitor path 0 es s1
    | .ptr e => reflectRecursive visitor path true e s1
    | .iface e => reflectRecursive visitor path false e s1
    | _ => .ok s1
/-- Modelled from the spec: the part of `utils.ReflectRecursive` that walks the fields of
a struct; a field is addressable when the struct is. -/
def reflectFields {σ : Type} (visitor : σ → String → Bool → Value → Verdict × σ)
    (path : String) (canAddr : Bool) (fs : Fields) (s : σ) : Except Abort σ :=
  match fs with
  | .nil => .ok s
  | .cons name v rest =>
    match reflectRecursive visitor (path ++ "." ++ name) canAddr v s with
    | .error e => .error e
    | .ok s1 => reflectFields visitor path canAddr rest s1
/-- Modelled from the spec: the part of `utils.ReflectRecursive` that walks the entries
of a map; an entry of a map is not addressable. -/
def reflectEntries {σ : Type} (visitor : σ → String → Bool → Value → Verdict × σ)
    (path : String) (es : Entries) (s : σ) : Except Abort σ :=
  match es with
  | .nil => .ok s
  | .cons key v rest =>
    match reflectRecursive visitor (path ++ "[" ++ key ++ "]") false v s with
    | .error e => .error e
    | .ok s1 => reflectEntries visitor path rest s1
/-- Modelled from the spec: the part of `utils.ReflectRecursive` that walks the elements
of a slice, from index `i` on; an element of a slice is addressable. -/
def reflectElems {σ : Type} (visitor : σ → String → Bool → Value → Verdict × σ)
    (path : String) (i : Nat) (es : Values) (s : σ) : Except Abort σ :=
  match es with
  | .nil => .ok s
  | .cons v rest =>
    match reflectRecursive visitor (path ++ "[" ++ toString i ++ "]") true v s with
    | .error e => .error e
    | .ok s1 => reflectElems visitor path (i + 1) rest s1
end

/-- Modelled from the spec: `utils.ReflectRecursive` is the walk from the root, whose
path is empty.  The root handed over by `reflectForDependencies` is the pointee of the
task pointer, which is addressable. -/
def ReflectRecursive {σ : Type} (v : Value)
    (visitor : σ → String → Bool → Value → Verdict × σ) (s : σ) : Except Abort σ :=
  reflectRecursive visitor "" true v s

/-! ## `getDependencies` and `FindTaskDependencies` -/

/-- The type switch on `v.Addr().Interface()` for a struct below the root
(topological_sort.go lines 82-97).  `v.Addr()` panics when the struct is not addressable.
Otherwise a `HasDependencies` contributes what it declares, a `Task` contributes itself,
a `Resource`, `*ResourceHolder` or `*pkix.Name` contributes nothing, and any other struct
is an error. -/
def visitStruct (T : Types) (tasks : Tasks) (dependencies : List StructPtr)
    (path : String) (canAddr : Bool) (ty : String) (addr : Nat) (fs : Fields) :
    Verdict × List StructPtr :=
  if canAddr = false then (.panic, dependencies)
  else
    match (T ty).getDependencies with
    | some GetDependencies =>
      (.SkipReflection, dependencies ++ GetDependencies ⟨ty, addr, fs⟩ tasks)
    | none =>
      if (T ty).isTask then (.SkipReflection, dependencies ++ [⟨ty, addr, fs⟩])
      else if (T ty).isResource then (.SkipReflection, dependencies)
      else if (T ty).isResourceHolder then (.SkipReflection, dependencies)
      else if (T ty).isPkixName then (.SkipReflection, dependencies)
      else (.err (.unhandledType path ty), dependencies)

/-- The visitor closure of `getDependencies` (lines 62-103); the captured slice
`dependencies` is the state. -/
def visitor (T : Types) (tasks : Tasks) (dependencies : List StructPtr)
    (path : String) (canAddr : Bool) (v : Value) : Verdict × List StructPtr :=
  match v with
  | .prim => (.nil, dependencies)
  | .str _ => (.nil, dependencies)
  | .ifaceNil => (.nil, dependencies)
  | .iface _ => (.nil, dependencies)
  | .ptrNil => (.nil, dependencies)
  | .ptr _ => (.nil, dependencies)
  | .slice _ => (.nil, dependencies)
  | .map _ => (.nil, dependencies)
  | .struct ty addr fs =>
    if path = "" then (.nil, dependencies)
    else visitStruct T tasks dependencies path canAddr ty addr fs
  | .other kind => (.err (.unhandledKind path kind), dependencies)

/-- How dependency discovery ends without a result: the two fatal exits (`glog.Fatalf`
of lines 106 and 38) and the panic of `v.Addr()` (line 82) on a struct that is not
addressable, at the given path. -/
inductive Fatal where
  | findingDependencies (e : WalkError) : Fatal
  | dependencyNotFound (dep : Ref) : Fatal
  | addrPanic (path : String) : Fatal
deriving DecidableEq, Repr

/-- The function `getDependencies`: the dependencies collected by the walk, or the fatal
exit of line 106 when the walk returns an error, or the panic of the visitor. -/
def getDependencies (T : Types) (tasks : Tasks) (v : Value) : Except Fatal (List StructPtr) :=
  match ReflectRecursive v (visitor T tasks) [] with
  | .error (.error e) => .error (.findingDependencies e)
  | .error (.panic path) => .error (.addrPanic path)
  | .ok dependencies => .ok dependencies

/-- The function `reflectForDependencies`. -/
def reflectForDependencies (T : Types) (tasks : Tasks) (task : StructPtr) :
    Except Fatal (List StructPtr) :=
  getDependencies T tasks task.elem

/-- The map `taskToId` after the loop of lines 18-20: a later assignment for the same
task shadows an earlier one. -/
def taskToId (tasks : Tasks) : List (Ref × String) :=
  tasks.foldl (fun m kt => (kt.2.ref, kt.1) :: m) []

/-- The loop of lines 35-41: the key of every dependency, or the fatal exit of
line 38. -/
def dependencyKeys (ids : List (Ref × String)) : List StructPtr → Except Fatal (List String)
  | [] => .ok []
  | dep :: rest =>
    match ids.lookup dep.ref with
    | none => .error (.dependencyNotFound dep.ref)
    | some dependencyKey =>
      match dependencyKeys ids rest with
      | .error e => .error e
      | .ok keys => .ok (dependencyKey :: keys)

/-- The dependencies of one task, lines 27-32: declared if the task is a
`HasDependencies`, discovered by the walk otherwise. -/
def taskDependencies (T : Types) (tasks : Tasks) (task : StructPtr) :
    Except Fatal (List StructPtr) :=
  match (T task.ty).getDependencies with
  | some GetDependencies => .ok (GetDependencies task tasks)
  | none => reflectForDependencies T tasks task

/-- The body of the loop of lines 24-44 for one task: its dependency keys. -/
def taskEdges (T : Types) (tasks : Tasks) (task : StructPtr) : Except Fatal (List String) :=
  match taskDependencies T tasks task with
  | .error e => .error e
  | .ok dependencies => dependencyKeys (taskToId tasks) dependencies

/-- The loop of lines 24-44 over the entries `rest` of the universe `tasks`. -/
def findLoop (T : Types) (tasks : Tasks) : Tasks → Except Fatal (List (String × List String))
  | [] => .ok []
  | (k, t) :: rest =>
    match taskEdges T tasks t with
    | .error e => .error e
    | .ok dependencyKeys =>
      match findLoop T tasks rest with
      | .error e => .error e
      | .ok edges => .ok ((k, dependencyKeys) :: edges)

/-- The function `FindTaskDependencies`: the map from each task's key to the keys of its
dependencies, or a fatal exit or panic. -/
def FindTaskDependencies (T : Types) (tasks : Tasks) :
    Except Fatal (List (String × List String)) :=
  findLoop T tasks tasks

/-! ## Predicates on the values below a task -/

/-- A struct type that none of the type assertions of `getDependencies` accepts: not a
`HasDependencies`, `Task`, `Resource`, `*ResourceHolder` or `*pkix.Name`. -/
def unhandledStruct (T : Types) (ty : String) : Bool :=
  (T ty).getDependencies.isNone && !(T ty).isTask && !(T ty).isResource
    && !(T ty).isResourceHolder && !(T ty).isPkixName

mutual
/-- A value below the root holds something the walk cannot classify: a value of an
unhandled kind, or an addressable struct of an unhandled type.  The search goes through
pointers, interfaces, slices and maps and stops at every struct; `canAddr` says whether
the value is addressable. -/
def Value.unclassified (T : Types) (canAddr : Bool) : Value → Bool
  | .struct ty _ _ => canAddr && unhandledStruct T ty
  | .other _ => true
  | .ptr e => e.unclassified T true
  | .iface e => e.unclassified T false
  | .slice es => es.unclassified T
  | .map es => es.unclassified T
  | _ => false
/-- Some element of a slice is unclassified. -/
def Values.unclassified (T : Types) : Values → Bool
  | .nil => false
  | .cons v vs => v.unclassified T true || vs.unclassified T
/-- Some entry of a map is unclassified. -/
def Entries.unclassified (T : Types) : Entries → Bool
  | .nil => false
  | .cons _ v es => v.unclassified T false || es.unclassified T
/-- Some field of an addressable struct is unclassified. -/
def Fields.unclassified (T : Types) : Fields → Bool
  | .nil => false
  | .cons _ v fs => v.unclassified T true || fs.unclassified T
end

mutual
/-- A value below the root holds a struct that is not addressable: a struct held by value
in a map or in an interface.  The search goes through pointers, interfaces, slices and
maps and stops at every struct; `canAddr` says whether the value is addressable. -/
def Value.unaddressable (canAddr : Bool) : Value → Bool
  | .struct _ _ _ => !canAddr
  | .ptr e => e.unaddressable true
  | .iface e => e.unaddressable false
  | .slice es => es.unaddressable
  | .map es => es.unaddressable
  | _ => false
/-- Some element of a slice holds a struct that is not addressable. -/
def Values.unaddressable : Values → Bool
  | .nil => false
  | .cons v vs => v.unaddressable true || vs.unaddressable
/-- Some entry of a map holds a struct that is not addressable. -/
def Entries.unaddressable : Entries → Bool
  | .nil => false
  | .cons _ v es => v.unaddressable false || es.unaddressable
/-- Some field of an addressable struct holds a struct that is not addressable. -/
def Fields.unaddressable : Fields → Bool
  | .nil => false
  | .cons _ v fs => v.unaddressable true || fs.unaddressable
end

mutual
/-- A value below the root references the struct `r`: it is that struct, or a pointer or
interface holding it, or a slice or map with such an element.  The search stops at every
struct. -/
def Value.references (r : Ref) : Value → Bool
  | .struct ty addr _ => decide (Ref.mk ty addr = r)
  | .ptr e => e.references r
  | .iface e => e.references r
  | .slice es => es.references r
  | .map es => es.references r
  | _ => false
/-- Some element of a slice references `r`. -/
def Values.references (r : Ref) : Values → Bool
  | .nil => false
  | .cons v vs => v.references r || vs.references r
/-- Some entry of a map references `r`. -/
def Entries.references (r : Ref) : Entries → Bool
  | .nil => false
  | .cons _ v es => v.references r || es.references r
/-- Some field of a struct references `r`. -/
def Fields.references (r : Ref) : Fields → Bool
  | .nil => false
  | .cons _ v fs => v.references r || fs.references r
end

/-- The fields of a struct as a list of names and values. -/
def Fields.toList : Fields → List (String × Value)
  | .nil => []
  | .cons name v fs => (name, v) :: fs.toList

/-! ## Sample task universes -/

/-- Sample type declarations: `SSHKey` and `Instance` are tasks without declared
dependencies, `Declared` is a task that is a `HasDependencies` declaring none,
`ResourceHolder` is the resource holder, every other type is a plain struct. -/
def sampleTypes : Types := fun ty =>
  if ty = "SSHKey" then ⟨none, true, false, false, false⟩
  else if ty = "Instance" then ⟨none, true, false, false, false⟩
  else if ty = "Declared" then ⟨some (fun _ _ => []), true, false, false, false⟩
  else if ty = "ResourceHolder" then ⟨none, false, false, true, false⟩
  else ⟨none, false, false, false, false⟩

/-- An SSH key task. -/
def sampleKey : StructPtr :=
  ⟨"SSHKey", 1, .cons "Name" (.ptr (.str "k")) (.cons "KeyFingerprint" .ptrNil .nil)⟩

/-- An instance task with a field pointing to the SSH key task. -/
def sampleInstance : StructPtr :=
  ⟨"Instance", 2, .cons "Name" (.ptr (.str "i")) (.cons "SSHKey" (.ptr sampleKey.elem) .nil)⟩

/-- A task that declares its dependencies (none) and has a field pointing to the SSH key
task. -/
def sampleDeclared : StructPtr :=
  ⟨"Declared", 3, .cons "SSHKey" (.ptr sampleKey.elem) .nil⟩

/-- An instance task with a field pointing to a task that declares its own
dependencies. -/
def sampleInstanceOfDeclared : StructPtr :=
  ⟨"Instance", 4, .cons "Parent" (.ptr sampleDeclared.elem) .nil⟩

/-- An instance task whose field `Spec` holds a plain struct, which in turn points to
the SSH key task. -/
def sampleNested : StructPtr :=
  ⟨"Instance", 5,
    .cons "Spec" (.struct "Spec" 6 (.cons "SSHKey" (.ptr sampleKey.elem) .nil)) .nil⟩

/-- An instance task whose field `PublicKey` points to a resource holder that itself
points to the SSH key task. -/
def sampleHolder : StructPtr :=
  ⟨"Instance", 7,
    .cons "PublicKey"
      (.ptr (.struct "ResourceHolder" 8 (.cons "Owner" (.ptr sampleKey.elem) .nil))) .nil⟩

/-- An instance task with a slice of plain structs that hold only primitive values. -/
def sampleTagged : StructPtr :=
  ⟨"Instance", 9,
    .cons "Count" .prim
      (.cons "Tags" (.slice (.cons (.struct "Tag" 10 (.cons "Key" (.str "a") .nil)) .nil))
        .nil)⟩

/-- An instance task with a field of kind `func`. -/
def sampleFunc : StructPtr :=
  ⟨"Instance", 11, .cons "Hook" (.other "func") .nil⟩

/-- A task of a type whose `GetDependencies` declares the SSH key task twice, with a field
pointing to the instance task. -/
def samplePinned : StructPtr :=
  ⟨"Pinned", 12, .cons "Instance" (.ptr sampleInstance.elem) .nil⟩

/-- The sample type declarations extended by `Pinned`, a task that is a `HasDependencies`
declaring the SSH key task twice. -/
def pinnedTypes : Types := fun ty =>
  if ty = "Pinned" then ⟨some (fun _ _ => [sampleKey, sampleKey]), true, false, false, false⟩
  else sampleTypes ty

mutual
/-- Every value of the tree, nested structs included, is of a kind the `switch` of
`getDependencies` names: primitive, string, interface, pointer, slice, map or struct. -/
def Value.kindsHandled : Value → Bool
  | .other _ => false
  | .struct _ _ fs => fs.kindsHandled
  | .ptr e => e.kindsHandled
  | .iface e => e.kindsHandled
  | .slice es => es.kindsHandled
  | .map es => es.kindsHandled
  | _ => true
/-- Every element of a slice has handled kinds. -/
def Values.kindsHandled : Values → Bool
  | .nil => true
  | .cons v vs => v.kindsHandled && vs.kindsHandled
/-- Every entry of a map has handled kinds. -/
def Entries.kindsHandled : Entries → Bool
  | .nil => true
  | .cons _ v es => v.kindsHandled && es.kindsHandled
/-- Every field of a struct has handled kinds. -/
def Fields.kindsHandled : Fields → Bool
  | .nil => true
  | .cons _ v fs => v.kindsHandled && fs.kindsHandled
end

/-- An instance task whose field `Files` is a map that holds a resource holder by
value. -/
def sampleMapped : StructPtr :=
  ⟨"Instance", 14,
    .cons "Files" (.map (.cons "a" (.struct "ResourceHolder" 15 .nil) .nil)) .nil⟩

/-- An instance task whose field `X` is an interface that holds a plain struct by
value. -/
def sampleBoxed : StructPtr :=
  ⟨"Instance", 16, .cons "X" (.iface (.struct "Tag" 17 .nil)) .nil⟩

/-! ## The topological executor -/

/-- The dependency-key mapping: the output of `FindTaskDependencies`. -/
abbrev Edges := List (String × List String)

/-- Modelled from the spec: the dependency keys of a key as the sort routine, which is
not among the sources, reads them, duplicates collapsed. -/
def dependenciesOf (edges : Edges) (k : String) : List String :=
  ((edges.lookup k).getD []).dedup

/-- Modelled from the spec: the dependents of a key for the sort routine, the keys that
list it as a dependency. -/
def dependentsOf (edges : Edges) (k : String) : List String :=
  (edges.filter (fun e => k ∈ e.2)).map Prod.fst

/-- Modelled from the spec: the tie-break of the sort routine, the lexicographic order on
keys, character by character. -/
def lexLe : List Char → List Char → Bool
  | [], _ => true
  | _ :: _, [] => false
  | a :: as, b :: bs =>
    if a.toNat < b.toNat then true
    else if a.toNat = b.toNat then lexLe as bs
    else false

/-- Modelled from the spec: the ready keys of a round of the sort routine in
lexicographic order. -/
def sortKeys (ks : List String) : List String :=
  ks.insertionSort (fun a b => lexLe a.data b.data = true)

/-- Modelled from the spec: the in-degree table of the sort routine after decrementing
the entry of every key of `ks`, once for every occurrence. -/
def decrementAll (inDegree : String → Nat) (ks : List String) : String → Nat :=
  ks.foldl (fun f k => fun x => if x = k then f x - 1 else f x) inDegree

/-- Modelled from the spec: the outcome of a sort that cannot complete, the cycle error
naming the unresolved keys. -/
inductive SortError where
  | Cycle (unresolved : List String) : SortError
deriving DecidableEq, Repr

/-- Modelled from the spec: the sort routine that consumes the mapping is not among the
sources.  One round removes all keys of in-degree zero among the remaining ones, appends
them to the order in lexicographic order, and decrements the in-degree of their
dependents; when keys remain and none has in-degree zero, the result is the cycle error
naming them.  `fuel` bounds the number of rounds. -/
def kahnLoop (edges : Edges) :
    Nat → (String → Nat) → List String → List String → Except SortError (List String)
  | 0, _, remaining, order =>
    if remaining = [] then .ok order else .error (.Cycle remaining)
  | fuel + 1, inDegree, remaining, order =>
    if remaining = [] then .ok order
    else
      let ready := sortKeys (remaining.filter (fun k => inDegree k = 0))
      if ready = [] then .error (.Cycle remaining)
      else
        kahnLoop edges fuel
          (decrementAll inDegree ((ready.map (dependentsOf edges)).flatten))
          (remaining.filter (fun k => k ∉ ready)) (order ++ ready)

/-- Modelled from the spec: the execution order computed from the dependency-key mapping
by the in-degree based sort.  The in-degree of a key is the number of its distinct
dependencies, the edges that enter it from what must come before it; one round for every
key suffices. -/
def TopologicalSort (edges : Edges) : Except SortError (List String) :=
  kahnLoop edges edges.length (fun k => (dependenciesOf edges k).length)
    (edges.map Prod.fst) []

/-- The key `a` depends on the key `b`. -/
def dependsOn (edges : Edges) (a b : String) : Prop :=
  ∃ ds, (a, ds) ∈ edges ∧ b ∈ ds

/-- The mapping has no cycle: no key depends on itself through one or more steps. -/
def Acyclic (edges : Edges) : Prop :=
  ∀ k, ¬ Relation.TransGen (dependsOn edges) k k

/-- The mapping is the output of `FindTaskDependencies`: a map, so no key occurs twice,
and every dependency key is a key of the map. -/
def WellFormed (edges : Edges) : Prop :=
  (edges.map Prod.fst).Nodup ∧ ∀ k ds, (k, ds) ∈ edges → ∀ d ∈ ds, d ∈ edges.map Prod.fst

/-! ## SSH key tasks (`awstasks/sshkey.go`) -/

/-- The task `SSHKey`.  A `*string` is its value or nil; the pointer to the resource
holder is identified by its address. -/
structure SSHKey where
  Name : Option String
  PublicKey : Option Nat
  KeyFingerprint : Option String
deriving DecidableEq, Repr

/-- One key pair of a describe response (`ec2.KeyPairInfo`). -/
structure KeyPairInfo where
  KeyName : Option String
  KeyFingerprint : Option String
deriving DecidableEq, Repr

/-- The response of `DescribeKeyPairs`; its key pairs are non-nil. -/
structure DescribeKeyPairsOutput where
  KeyPairs : List KeyPairInfo
deriving DecidableEq, Repr

/-- The error of a cloud call: an `awserr.Error` with its code, or any other error. -/
inductive CloudError where
  | aws (code : String) (message : String) : CloudError
  | other (message : String) : CloudError
deriving DecidableEq, Repr

/-- How `SSHKey.Find` fails: the two `fmt.Errorf` of the function, and the dereference of
a nil `e.Name` while formatting the second. -/
inductive FindError where
  | listing (err : CloudError) : FindError
  | multiple (name : String) : FindError
  | nilDereference : FindError
deriving DecidableEq, Repr

/-- The method `SSHKey.Find` (lines 39-80), as a function of what `DescribeKeyPairs`
returned.  The helper `fi.StringValue` is not among the sources and is the parameter
`StringValue`. -/
def SSHKey.Find (StringValue : Option String → String) (e : SSHKey)
    (response : Option DescribeKeyPairsOutput) (err : Option CloudError) :
    Except FindError (Option SSHKey) :=
  match err with
  | some (.aws "InvalidKeyPair.NotFound" _) => .ok none
  | some err => .error (.listing err)
  | none =>
    match response with
    | none => .ok none
    | some response =>
      match response.KeyPairs with
      | [] => .ok none
      | [k] =>
        let actual : SSHKey := { Name := k.KeyName, PublicKey := none,
                                 KeyFingerprint := k.KeyFingerprint }
        if StringValue actual.KeyFingerprint = StringValue e.KeyFingerprint then
          .ok (some { actual with PublicKey := e.PublicKey })
        else
          .ok (some actual)
      | _ :: _ :: _ =>
        match e.Name with
        | none => .error .nilDereference
        | some name => .error (.multiple name)

/-- What `SSHKey.CheckChanges` returns: nil, the error `fi.CannotChangeField(field)`, or
the run-time panic of reading through a nil `changes`. -/
inductive CheckResult where
  | nil : CheckResult
  | CannotChangeField (field : String) : CheckResult
  | nilDereference : CheckResult
deriving DecidableEq, Repr

/-- The method `SSHKey.CheckChanges` (lines 190-197). -/
def SSHKey.CheckChanges (a _e changes : Option SSHKey) : CheckResult :=
  match a with
  | some _ =>
    match changes with
    | none => .nilDereference
    | some changes =>
      match changes.Name with
      | some _ => .CannotChangeField "Name"
      | none => .nil
  | none => .nil

/-- A byte. -/
abbrev Byte := Fin 256

/-- The lowercase hexadecimal digits, as `fmt` keeps them. -/
def ldigits : List Char :=
  ['0', '1', '2', '3', '4', '5', '6', '7', '8', '9', 'a', 'b', 'c', 'd', 'e', 'f']

/-- The hexadecimal digit of a value below 16. -/
def hexDigit (n : Nat) : Char := ldigits.getD n '0'

/-- The two hexadecimal digits of a byte, high nibble first. -/
def hexByte (b : Byte) : List Char := [hexDigit (b.val / 16), hexDigit (b.val % 16)]

/-- The string `fmt.Sprintf("%x", data)` of a byte slice: the two lowercase hexadecimal
digits of every byte, in order. -/
def sprintfHex : List Byte → List Char
  | [] => []
  | b :: rest => hexByte b ++ sprintfHex rest

/-- The loop of `colonSeparatedHex` (lines 105-110) from index `i` on: `rest` is what
remains of `sshKeyFingerprint`, `colonSeparated` the buffer. -/
def colonSeparatedLoop : List Char → Nat → List Char → List Char
  | [], _, colonSeparated => colonSeparated
  | c :: rest, i, colonSeparated =>
    if i % 2 = 0 ∧ i ≠ 0 then
      colonSeparatedLoop rest (i + 1) ((colonSeparated ++ [':']) ++ [c])
    else
      colonSeparatedLoop rest (i + 1) (colonSeparated ++ [c])

/-- The function `colonSeparatedHex` (lines 102-113). -/
def colonSeparatedHex (data : List Byte) : String :=
  String.mk (colonSeparatedLoop (sprintfHex data) 0 [])

/-- The white space of `unicode.IsSpace`. -/
def isSpace (c : Char) : Bool :=
  c = '\t' || c = '\n' || c.toNat = 0x0B || c.toNat = 0x0C || c = '\r' || c = ' '
    || c.toNat = 0x85 || c.toNat = 0xA0 || c.toNat = 0x1680
    || (0x2000 ≤ c.toNat && c.toNat ≤ 0x200A)
    || c.toNat = 0x2028 || c.toNat = 0x2029 || c.toNat = 0x202F || c.toNat = 0x205F
    || c.toNat = 0x3000

/-- The scan of `strings.Fields`: `field` is the field being read, in reverse. -/
def fieldsLoop : List Char → List Char → List String
  | [], field => if field = [] then [] else [String.mk field.reverse]
  | c :: rest, field =>
    if isSpace c then
      if field = [] then fieldsLoop rest []
      else String.mk field.reverse :: fieldsLoop rest []
    else fieldsLoop rest (c :: field)

/-- The function `strings.Fields`: the maximal runs of characters that are not white
space. -/
def strings.Fields (s : String) : List String := fieldsLoop s.data []

/-- How `parseSSHPublicKey` fails: its three `fmt.Errorf`, with the key parser's error
of type `E` in the third. -/
inductive ParseError (E : Type) where
  | parsing (publicKey : String) : ParseError E
  | decoding (publicKey : String) : ParseError E
  | parsingKey (err : E) : ParseError E

/-- The function `parseSSHPublicKey` (lines 83-99).  The library functions
`base64.StdEncoding.DecodeString`, which returns the bytes it decoded and an error or
nil, and `ssh.ParsePublicKey` are parameters. -/
def parseSSHPublicKey {D E K : Type} (DecodeString : String → List Byte × Option D)
    (ParsePublicKey : List Byte → Except E K) (publicKey : String) :
    Except (ParseError E) K :=
  let tokens := strings.Fields publicKey
  if tokens.length < 2 then .error (.parsing publicKey)
  else
    let (sshPublicKeyBytes, _err) := DecodeString (tokens.getD 1 "")
    if tokens.length < 2 then .error (.decoding publicKey)
    else
      match ParsePublicKey sshPublicKeyBytes with
      | .error err => .error (.parsingKey err)
      | .ok sshPublicKey => .ok sshPublicKey

/-- A sample decoder for base64: it accepts only the text `AAAA`. -/
def sampleDecode (s : String) : List Byte × Option String :=
  if s = "AAAA" then ([0, 0, 0], none) else ([], some "illegal base64 data")

/-- A sample key parser: it accepts only the three zero bytes. -/
def sampleParse (b : List Byte) : Except String Nat :=
  if b = [0, 0, 0] then .ok 1 else .error "ssh: short read"

/-! ## The validation collaborator -/

/-- Modelled from the spec: the role of an instance group given to `api.DeepValidate`,
which is not among the sources. -/
inductive InstanceGroupRole where
  | Master : InstanceGroupRole
  | Node : InstanceGroupRole
deriving DecidableEq, Repr

/-- Modelled from the spec: an instance group given to `api.DeepValidate`, its role and
the zones it references. -/
structure InstanceGroup where
  Role : InstanceGroupRole
  Zones : List String
deriving DecidableEq, Repr

/-- Modelled from the spec: the cluster specification given to `api.DeepValidate`, the
names of its zones. -/
structure Cluster where
  Zones : List String
deriving DecidableEq, Repr

/-- Modelled from the spec: the duplicate zone names `api.DeepValidate` reports, the
values that occur again later in the list. -/
def duplicates : List String → List String
  | [] => []
  | z :: rest => if z ∈ rest then z :: duplicates rest else duplicates rest

/-- Modelled from the spec: the master zones `api.DeepValidate` counts, the zones of the
master instance groups, each once. -/
def masterZones (groups : List InstanceGroup) : List String :=
  ((groups.filter (fun g => g.Role = .Master)).map (fun g => g.Zones)).flatten.dedup

/-- Modelled from the spec: `api.DeepValidate` is not among the sources, only its tests
are.  Given the cluster specification and the declared instance groups it returns the
list of violations, collected in aggregate: no master instance group, no node instance
group, duplicate zone names, zones referenced by a group but absent from the cluster's
zone set, an even number of master zones.  The strict flag enforces the zone enumeration
checks, which non-strict mode skips.  The text of the last violation is the one the test
`TestDeepValidate_EvenEtcdClusterSize` expects, which begins with the text the spec
quotes. -/
def DeepValidate (c : Cluster) (groups : List InstanceGroup) (strict : Bool) : List String :=
  (if groups.all (fun g => g.Role ≠ .Master) then
      ["must configure at least one Master InstanceGroup"] else [])
  ++ (if groups.all (fun g => g.Role ≠ .Node) then
      ["must configure at least one Node InstanceGroup"] else [])
  ++ (duplicates c.Zones).map (fun z => "Zones contained a duplicate value: " ++ z)
  ++ (if strict then
      ((groups.map (fun g => g.Zones)).flatten.filter (fun z => z ∉ c.Zones)).map
        (fun z => "Zone " ++ z ++ " is not configured as a Zone in the cluster")
      else [])
  ++ (if (masterZones groups).length % 2 = 0 ∧ (masterZones groups).length ≠ 0 then
      ["There should be an odd number of master-zones, for etcd's quorum.  Hint: Use "
        ++ "--zones and " ++ "--master-zones to declare node zones and master zones separately."]
    else [])

/-- Modelled from the spec: the message of the error that `api.DeepValidate` returns,
the violations one per line. -/
def violationsMessage : List String → String
  | [] => ""
  | [v] => v
  | v :: rest => v ++ "\n" ++ violationsMessage rest

/-- Modelled from the spec: the error of `api.DeepValidate`, nil when nothing is
violated. -/
def DeepValidateError (c : Cluster) (groups : List InstanceGroup) (strict : Bool) :
    Option String :=
  match DeepValidate c groups strict with
  | [] => none
  | violations => some (violationsMessage violations)

/-- The predicate `strings.Contains`: the characters of `substr` occur in `s` as a
contiguous run. -/
def stringsContains (s substr : String) : Prop := substr.data <:+: s.data

/-! ## Unfolding the walk -/

section unfolding
variable {σ : Type} (vis : σ → String → Bool → Value → Verdict × σ) (path : String) (s : σ)

theorem reflectFields_nil (canAddr : Bool) : reflectFields vis path canAddr .nil s = .ok s := by
  rw [reflectFields]

theorem reflectFields_cons (canAddr : Bool) (name : String) (v : Value) (rest : Fields) :
    reflectFields vis path canAddr (.cons name v rest) s
      = (reflectRecursive vis (path ++ "." ++ name) canAddr v s).bind
          (reflectFields vis path canAddr rest) := by
  rw [reflectFields]
  cases reflectRecursive vis (path ++ "." ++ name) canAddr v s <;> rfl

theorem reflectEntries_nil : reflectEntries vis path .nil s = .ok s := by
  rw [reflectEntries]

theorem reflectEntries_cons (key : String) (v : Value) (rest : Entries) :
    reflectEntries vis path (.cons key v rest) s
      = (reflectRecursive vis (path ++ "[" ++ key ++ "]") false v s).bind
          (reflectEntries vis path rest) := by
  rw [reflectEntries]
  cases reflectRecursive vis (path ++ "[" ++ key ++ "]") false v s <;> rfl

theorem reflectElems_nil (i : Nat) : reflectElems vis path i .nil s = .ok s := by
  rw [reflectElems]

theorem reflectElems_cons (i : Nat) (v : Value) (rest : Values) :
    reflectElems vis path i (.cons v rest) s
      = (reflectRecursive vis (path ++ "[" ++ toString i ++ "]") true v s).bind
          (reflectElems vis path (i + 1) rest) := by
  rw [reflectElems]
  cases reflectRecursive vis (path ++ "[" ++ toString i ++ "]") true v s <;> rfl

end unfolding

theorem path_field_ne (path name : String) : path ++ "." ++ name ≠ "" := by
  intro h
  have hl := congrArg String.length h
  simp at hl
  exact absurd hl.1.2 (by decide)

theorem path_index_ne (path key : String) : path ++ "[" ++ key ++ "]" ≠ "" := by
  intro h
  have hl := congrArg String.length h
  simp at hl
  exact absurd hl.2 (by decide)

/-! ## The walk only appends to the collected dependencies -/

theorem visitStruct_append (T : Types) (tasks : Tasks) (s : List StructPtr) (path : String)
    (canAddr : Bool) (ty : String) (addr : Nat) (fs : Fields) :
    visitStruct T tasks s path canAddr ty addr fs
      = ((visitStruct T tasks [] path canAddr ty addr fs).1,
          s ++ (visitStruct T tasks [] path canAddr ty addr fs).2) := by
  unfold visitStruct
  cases canAddr
  · simp
  · simp only [Bool.true_eq_false, if_false]
    cases (T ty).getDependencies <;> simp
    split_ifs <;> simp

theorem visitStruct_fst (T : Types) (tasks : Tasks) (s : List StructPtr) (path : String)
    (canAddr : Bool) (ty : String) (addr : Nat) (fs : Fields) :
    (visitStruct T tasks s path canAddr ty addr fs).1
      = if canAddr = false then .panic
        else if unhandledStruct T ty then .err (.unhandledType path ty)
        else .SkipReflection := by
  unfold visitStruct unhandledStruct
  cases canAddr
  · simp
  · simp only [Bool.true_eq_false, if_false]
    cases (T ty).getDependencies <;> simp
    split_ifs <;> simp_all

theorem except_bind_map {ε α : Type} (x : Except ε α) (f g : α → Except ε α) (m : α → α)
    (h : ∀ a, f (m a) = (g a).map m) : (x.map m).bind f = (x.bind g).map m := by
  cases x <;> simp [Except.map, Except.bind, h]

theorem except_map_map {ε α : Type} (x : Except ε α) (f g : α → α) :
    (x.map f).map g = x.map (g ∘ f) := by
  cases x <;> simp [Except.map]

mutual
theorem reflectRecursive_append (T : Types) (tasks : Tasks) (path : String) (canAddr : Bool)
    (v : Value) (s : List StructPtr) :
    reflectRecursive (visitor T tasks) path canAddr v s
      = (reflectRecursive (visitor T tasks) path canAddr v []).map (s ++ ·) := by
  cases v with
  | struct ty addr fs =>
    rw [reflectRecursive, reflectRecursive]
    simp only [visitor]
    split_ifs with hp
    · simp only
      exact reflectFields_append T tasks path canAddr fs s
    · rw [visitStruct_append]
      rcases visitStruct T tasks [] path canAddr ty addr fs with ⟨vd, s1⟩
      cases vd with
      | nil =>
        simp only
        rw [reflectFields_append T tasks path canAddr fs (s ++ s1),
          reflectFields_append T tasks path canAddr fs s1]
        cases reflectFields (visitor T tasks) path canAddr fs [] <;> simp [Except.map]
      | SkipReflection => simp [Except.map]
      | err e => simp [Except.map]
      | panic => simp [Except.map]
  | map es =>
    rw [reflectRecursive, reflectRecursive]
    simp only [visitor]
    exact reflectEntries_append T tasks path es s
  | slice es =>
    rw [reflectRecursive, reflectRecursive]
    simp only [visitor]
    exact reflectElems_append T tasks path 0 es s
  | ptr e =>
    rw [reflectRecursive, reflectRecursive.eq_def _ _ _ (.ptr e)]
    simp only [visitor]
    exact reflectRecursive_append T tasks path true e s
  | iface e =>
    rw [reflectRecursive, reflectRecursive.eq_def _ _ _ (.iface e)]
    simp only [visitor]
    exact reflectRecursive_append T tasks path false e s
  | prim => rw [reflectRecursive, reflectRecursive]; simp [visitor, Except.map]
  | str _ => rw [reflectRecursive, reflectRecursive]; simp [visitor, Except.map]
  | ifaceNil => rw [reflectRecursive, reflectRecursive]; simp [visitor, Except.map]
  | ptrNil => rw [reflectRecursive, reflectRecursive]; simp [visitor, Except.map]
  | other _ => rw [reflectRecursive, reflectRecursive]; simp [visitor, Except.map]
theorem reflectFields_append (T : Types) (tasks : Tasks) (path : String) (canAddr : Bool)
    (fs : Fields) (s : List StructPtr) :
    reflectFields (visitor T tasks) path canAddr fs s
      = (reflectFields (visitor T tasks) path canAddr fs []).map (s ++ ·) := by
  cases fs with
  | nil => simp [reflectFields_nil, Except.map]
  | cons name v rest =>
    rw [reflectFields_cons, reflectFields_cons, reflectRecursive_append T tasks _ _ v s]
    apply except_bind_map
    intro a
    rw [reflectFields_append T tasks path canAddr rest (s ++ a),
      reflectFields_append T tasks path canAddr rest a, except_map_map]
    congr 1
    funext x
    simp
theorem reflectEntries_append (T : Types) (tasks : Tasks) (path : String) (es : Entries)
    (s : List StructPtr) :
    reflectEntries (visitor T tasks) path es s
      = (reflectEntries (visitor T tasks) path es []).map (s ++ ·) := by
  cases es with
  | nil => simp [reflectEntries_nil, Except.map]
  | cons key v rest =>
    rw [reflectEntries_cons, reflectEntries_cons, reflectRecursive_append T tasks _ _ v s]
    apply except_bind_map
    intro a
    rw [reflectEntries_append T tasks path rest (s ++ a),
      reflectEntries_append T tasks path rest a, except_map_map]
    congr 1
    funext x
    simp
theorem reflectElems_append (T : Types) (tasks : Tasks) (path : String) (i : Nat) (es : Values)
    (s : List StructPtr) :
    reflectElems (visitor T tasks) path i es s
      = (reflectElems (visitor T tasks) path i es []).map (s ++ ·) := by
  cases es with
  | nil => simp [reflectElems_nil, Except.map]
  | cons v rest =>
    rw [reflectElems_cons, reflectElems_cons, reflectRecursive_append T tasks _ _ v s]
    apply except_bind_map
    intro a
    rw [reflectElems_append T tasks path (i + 1) rest (s ++ a),
      reflectElems_append T tasks path (i + 1) rest a, except_map_map]
    congr 1
    funext x
    simp
end

/-- A step of the walk followed by the rest succeeds exactly when both succeed, and the
result is the concatenation of what each collects. -/
theorem bind_ok_iff {ε α : Type} (x : Except ε (List α)) (f : List α → Except ε (List α))
    (hf : ∀ s, f s = (f []).map (s ++ ·)) (d : List α) :
    x.bind f = .ok d ↔ ∃ d1 d2, x = .ok d1 ∧ f [] = .ok d2 ∧ d = d1 ++ d2 := by
  cases x with
  | error e => simp [Except.bind]
  | ok d1 =>
    simp only [Except.bind, Except.ok.injEq, exists_and_left, exists_eq_left']
    rw [hf d1]
    cases f [] with
    | error e => simp [Except.map]
    | ok d2 =>
      simp only [Except.map, Except.ok.injEq, exists_eq_left']
      exact eq_comm

/-- A step of the walk followed by the rest fails exactly when one of them fails. -/
theorem bind_error_iff {ε α : Type} (x : Except ε (List α)) (f : List α → Except ε (List α))
    (hf : ∀ s, f s = (f []).map (s ++ ·)) :
    (∃ e, x.bind f = .error e) ↔ (∃ e, x = .error e) ∨ (∃ e, f [] = .error e) := by
  cases x with
  | error e => simp [Except.bind]
  | ok d1 =>
    simp only [Except.bind, exists_false, false_or]
    rw [hf d1]
    cases f [] <;> simp [Except.map]

/-- A step of the walk followed by the rest ends in a given way without a result exactly
when the step does, or the step succeeds and the rest ends that way. -/
theorem bind_error_eq_iff {ε α : Type} (x : Except ε (List α))
    (f : List α → Except ε (List α)) (hf : ∀ s, f s = (f []).map (s ++ ·)) (a : ε) :
    x.bind f = .error a ↔ x = .error a ∨ ((∃ d, x = .ok d) ∧ f [] = .error a) := by
  cases x with
  | error e => simp [Except.bind]
  | ok d1 =>
    simp only [Except.bind, false_or, Except.ok.injEq, exists_eq', true_and]
    rw [hf d1]
    cases f [] <;> simp [Except.map]

/-! ## When the walk ends without a result -/

mutual
theorem reflectRecursive_stop (T : Types) (tasks : Tasks) (path : String) (canAddr : Bool)
    (v : Value) (hp : path ≠ "") :
    ((∃ a, reflectRecursive (visitor T tasks) path canAddr v [] = .error a)
        ↔ (v.unclassified T canAddr || v.unaddressable canAddr) = true)
    ∧ (∀ w, reflectRecursive (visitor T tasks) path canAddr v [] = .error (.error w) →
        v.unclassified T canAddr = true)
    ∧ (∀ p, reflectRecursive (visitor T tasks) path canAddr v [] = .error (.panic p) →
        v.unaddressable canAddr = true) := by
  cases v with
  | struct ty addr fs =>
    rw [reflectRecursive, Value.unclassified, Value.unaddressable]
    simp only [visitor, if_neg hp]
    have h1 := visitStruct_fst T tasks [] path canAddr ty addr fs
    rcases hvs : visitStruct T tasks [] path canAddr ty addr fs with ⟨vd, s1⟩
    rw [hvs] at h1
    simp only at h1
    cases canAddr with
    | false =>
      simp only [if_true] at h1
      subst h1
      simp
    | true =>
      simp only [Bool.true_eq_false, if_false] at h1
      by_cases hu : unhandledStruct T ty = true
      · rw [if_pos hu] at h1
        subst h1
        simp [hu]
      · rw [if_neg hu] at h1
        subst h1
        simp [hu]
  | map es =>
    rw [reflectRecursive, Value.unclassified, Value.unaddressable]
    simp only [visitor]
    exact reflectEntries_stop T tasks path es
  | slice es =>
    rw [reflectRecursive, Value.unclassified, Value.unaddressable]
    simp only [visitor]
    exact reflectElems_stop T tasks path 0 es
  | ptr e =>
    rw [reflectRecursive, Value.unclassified, Value.unaddressable]
    simp only [visitor]
    exact reflectRecursive_stop T tasks path true e hp
  | iface e =>
    rw [reflectRecursive, Value.unclassified, Value.unaddressable]
    simp only [visitor]
    exact reflectRecursive_stop T tasks path false e hp
  | prim => rw [reflectRecursive]; simp [visitor, Value.unclassified, Value.unaddressable]
  | str _ => rw [reflectRecursive]; simp [visitor, Value.unclassified, Value.unaddressable]
  | ifaceNil => rw [reflectRecursive]; simp [visitor, Value.unclassified, Value.unaddressable]
  | ptrNil => rw [reflectRecursive]; simp [visitor, Value.unclassified, Value.unaddressable]
  | other _ => rw [reflectRecursive]; simp [visitor, Value.unclassified, Value.unaddressable]
theorem reflectFields_stop (T : Types) (tasks : Tasks) (path : String) (fs : Fields) :
    ((∃ a, reflectFields (visitor T tasks) path true fs [] = .error a)
        ↔ (fs.unclassified T || fs.unaddressable) = true)
    ∧ (∀ w, reflectFields (visitor T tasks) path true fs [] = .error (.error w) →
        fs.unclassified T = true)
    ∧ (∀ p, reflectFields (visitor T tasks) path true fs [] = .error (.panic p) →
        fs.unaddressable = true) := by
  cases fs with
  | nil => simp [reflectFields_nil, Fields.unclassified, Fields.unaddressable]
  | cons name v rest =>
    obtain ⟨v1, v2, v3⟩ := reflectRecursive_stop T tasks _ true v (path_field_ne path name)
    obtain ⟨r1, r2, r3⟩ := reflectFields_stop T tasks path rest
    have happ := reflectFields_append T tasks path true rest
    rw [reflectFields_cons, Fields.unclassified, Fields.unaddressable]
    refine ⟨?_, ?_, ?_⟩
    · rw [bind_error_iff _ _ happ, v1, r1]
      simp only [Bool.or_eq_true]
      tauto
    · intro w hw
      rw [Bool.or_eq_true]
      rcases (bind_error_eq_iff _ _ happ _).mp hw with h | ⟨_, h⟩
      · exact Or.inl (v2 w h)
      · exact Or.inr (r2 w h)
    · intro p hw
      rw [Bool.or_eq_true]
      rcases (bind_error_eq_iff _ _ happ _).mp hw with h | ⟨_, h⟩
      · exact Or.inl (v3 p h)
      · exact Or.inr (r3 p h)
theorem reflectEntries_stop (T : Types) (tasks : Tasks) (path : String) (es : Entries) :
    ((∃ a, reflectEntries (visitor T tasks) path es [] = .error a)
        ↔ (es.unclassified T || es.unaddressable) = true)
    ∧ (∀ w, reflectEntries (visitor T tasks) path es [] = .error (.error w) →
        es.unclassified T = true)
    ∧ (∀ p, reflectEntries (visitor T tasks) path es [] = .error (.panic p) →
        es.unaddressable = true) := by
  cases es with
  | nil => simp [reflectEntries_nil, Entries.unclassified, Entries.unaddressable]
  | cons key v rest =>
    obtain ⟨v1, v2, v3⟩ := reflectRecursive_stop T tasks _ false v (path_index_ne path key)
    obtain ⟨r1, r2, r3⟩ := reflectEntries_stop T tasks path rest
    have happ := reflectEntries_append T tasks path rest
    rw [reflectEntries_cons, Entries.unclassified, Entries.unaddressable]
    refine ⟨?_, ?_, ?_⟩
    · rw [bind_error_iff _ _ happ, v1, r1]
      simp only [Bool.or_eq_true]
      tauto
    · intro w hw
      rw [Bool.or_eq_true]
      rcases (bind_error_eq_iff _ _ happ _).mp hw with h | ⟨_, h⟩
      · exact Or.inl (v2 w h)
      · exact Or.inr (r2 w h)
    · intro p hw
      rw [Bool.or_eq_true]
      rcases (bind_error_eq_iff _ _ happ _).mp hw with h | ⟨_, h⟩
      · exact Or.inl (v3 p h)
      · exact Or.inr (r3 p h)
theorem reflectElems_stop (T : Types) (tasks : Tasks) (path : String) (i : Nat)
    (es : Values) :
    ((∃ a, reflectElems (visitor T tasks) path i es [] = .error a)
        ↔ (es.unclassified T || es.unaddressable) = true)
    ∧ (∀ w, reflectElems (visitor T tasks) path i es [] = .error (.error w) →
        es.unclassified T = true)
    ∧ (∀ p, reflectElems (visitor T tasks) path i es [] = .error (.panic p) →
        es.unaddressable = true) := by
  cases es with
  | nil => simp [reflectElems_nil, Values.unclassified, Values.unaddressable]
  | cons v rest =>
    obtain ⟨v1, v2, v3⟩ :=
      reflectRecursive_stop T tasks _ true v (path_index_ne path (toString i))
    obtain ⟨r1, r2, r3⟩ := reflectElems_stop T tasks path (i + 1) rest
    have happ := reflectElems_append T tasks path (i + 1) rest
    rw [reflectElems_cons, Values.unclassified, Values.unaddressable]
    refine ⟨?_, ?_, ?_⟩
    · rw [bind_error_iff _ _ happ, v1, r1]
      simp only [Bool.or_eq_true]
      tauto
    · intro w hw
      rw [Bool.or_eq_true]
      rcases (bind_error_eq_iff _ _ happ _).mp hw with h | ⟨_, h⟩
      · exact Or.inl (v2 w h)
      · exact Or.inr (r2 w h)
    · intro p hw
      rw [Bool.or_eq_true]
      rcases (bind_error_eq_iff _ _ happ _).mp hw with h | ⟨_, h⟩
      · exact Or.inl (v3 p h)
      · exact Or.inr (r3 p h)
end

/-- The walk from a task's struct is the walk over its fields. -/
theorem getDependencies_eq (T : Types) (tasks : Tasks) (t : StructPtr) :
    getDependencies T tasks t.elem
      = match reflectFields (visitor T tasks) "" true t.fields [] with
        | .error (.error e) => .error (.findingDependencies e)
        | .error (.panic path) => .error (.addrPanic path)
        | .ok dependencies => .ok dependencies := by
  unfold getDependencies ReflectRecursive StructPtr.elem
  rw [reflectRecursive]
  simp only [visitor, if_true]

/-- The walk from a task's struct ends without a result exactly when a field holds
something unclassified or a struct that is not addressable. -/
theorem getDependencies_error_iff (T : Types) (tasks : Tasks) (t : StructPtr) :
    (∃ e, getDependencies T tasks t.elem = .error e)
      ↔ (t.fields.unclassified T || t.fields.unaddressable) = true := by
  rw [← (reflectFields_stop T tasks "" t.fields).1, getDependencies_eq]
  rcases reflectFields (visitor T tasks) "" true t.fields [] with a | d
  · cases a <;> simp
  · simp

/-- The fatal exit of line 106 is taken only when a field holds something
unclassified. -/
theorem getDependencies_finding (T : Types) (tasks : Tasks) (t : StructPtr) (w : WalkError)
    (h : getDependencies T tasks t.elem = .error (.findingDependencies w)) :
    t.fields.unclassified T = true := by
  rw [getDependencies_eq] at h
  refine (reflectFields_stop T tasks "" t.fields).2.1 w ?_
  rcases hr : reflectFields (visitor T tasks) "" true t.fields [] with a | d
  · rw [hr] at h
    cases a with
    | error e => simp only [Except.error.injEq, Fatal.findingDependencies.injEq] at h; rw [h]
    | panic p => simp at h
  · rw [hr] at h
    simp at h

/-- The walk panics only when a field holds a struct that is not addressable. -/
theorem getDependencies_panic (T : Types) (tasks : Tasks) (t : StructPtr) (p : String)
    (h : getDependencies T tasks t.elem = .error (.addrPanic p)) :
    t.fields.unaddressable = true := by
  rw [getDependencies_eq] at h
  refine (reflectFields_stop T tasks "" t.fields).2.2 p ?_
  rcases hr : reflectFields (visitor T tasks) "" true t.fields [] with a | d
  · rw [hr] at h
    cases a with
    | error e => simp at h
    | panic q => simp only [Except.error.injEq, Fatal.addrPanic.injEq] at h; rw [h]
  · rw [hr] at h
    simp at h

/-- The walk ends without a result only in the fatal exit of line 106 or in the panic. -/
theorem getDependencies_error_kind (T : Types) (tasks : Tasks) (v : Value) (e : Fatal)
    (h : getDependencies T tasks v = .error e) :
    (∃ w, e = .findingDependencies w) ∨ (∃ p, e = .addrPanic p) := by
  unfold getDependencies at h
  rcases hr : ReflectRecursive v (visitor T tasks) [] with a | d
  · rw [hr] at h
    cases a with
    | error w => exact Or.inl ⟨w, by simpa using h.symm⟩
    | panic p => exact Or.inr ⟨p, by simpa using h.symm⟩
  · rw [hr] at h
    simp at h

/-! ## What the walk collects -/

mutual
theorem reflectRecursive_references (T : Types) (tasks : Tasks) (r : Ref)
    (hd : (T r.ty).getDependencies = none) (ht : (T r.ty).isTask = true)
    (path : String) (canAddr : Bool) (v : Value) (hp : path ≠ "") (d : List StructPtr)
    (hr : v.references r = true)
    (hw : reflectRecursive (visitor T tasks) path canAddr v [] = .ok d) :
    ∃ x ∈ d, x.ref = r := by
  cases v with
  | struct ty addr fs =>
    rw [Value.references, decide_eq_true_eq] at hr
    subst hr
    simp only at hd ht
    rw [reflectRecursive] at hw
    cases canAddr with
    | false => simp [visitor, if_neg hp, visitStruct] at hw
    | true =>
      simp only [visitor, if_neg hp, visitStruct, Bool.true_eq_false, if_false, hd, ht,
        if_true, List.nil_append] at hw
      simp only [Except.ok.injEq] at hw
      subst hw
      exact ⟨_, List.mem_singleton_self _, rfl⟩
  | map es =>
    rw [Value.references] at hr
    rw [reflectRecursive] at hw
    simp only [visitor] at hw
    exact reflectEntries_references T tasks r hd ht path es d hr hw
  | slice es =>
    rw [Value.references] at hr
    rw [reflectRecursive] at hw
    simp only [visitor] at hw
    exact reflectElems_references T tasks r hd ht path 0 es d hr hw
  | ptr e =>
    rw [Value.references] at hr
    rw [reflectRecursive] at hw
    simp only [visitor] at hw
    exact reflectRecursive_references T tasks r hd ht path true e hp d hr hw
  | iface e =>
    rw [Value.references] at hr
    rw [reflectRecursive] at hw
    simp only [visitor] at hw
    exact reflectRecursive_references T tasks r hd ht path false e hp d hr hw
  | prim => simp [Value.references] at hr
  | str _ => simp [Value.references] at hr
  | ifaceNil => simp [Value.references] at hr
  | ptrNil => simp [Value.references] at hr
  | other _ => simp [Value.references] at hr
theorem reflectFields_references (T : Types) (tasks : Tasks) (r : Ref)
    (hd : (T r.ty).getDependencies = none) (ht : (T r.ty).isTask = true)
    (path : String) (canAddr : Bool) (fs : Fields) (d : List StructPtr)
    (hr : fs.references r = true)
    (hw : reflectFields (visitor T tasks) path canAddr fs [] = .ok d) :
    ∃ x ∈ d, x.ref = r := by
  cases fs with
  | nil => simp [Fields.references] at hr
  | cons name v rest =>
    rw [reflectFields_cons,
      bind_ok_iff _ _ (reflectFields_append T tasks path canAddr rest)] at hw
    obtain ⟨d1, d2, h1, h2, rfl⟩ := hw
    rw [Fields.references, Bool.or_eq_true] at hr
    rcases hr with hr | hr
    · obtain ⟨x, hx, hxr⟩ :=
        reflectRecursive_references T tasks r hd ht _ canAddr v (path_field_ne path name)
          d1 hr h1
      exact ⟨x, List.mem_append_left _ hx, hxr⟩
    · obtain ⟨x, hx, hxr⟩ :=
        reflectFields_references T tasks r hd ht path canAddr rest d2 hr h2
      exact ⟨x, List.mem_append_right _ hx, hxr⟩
theorem reflectEntries_references (T : Types) (tasks : Tasks) (r : Ref)
    (hd : (T r.ty).getDependencies = none) (ht : (T r.ty).isTask = true)
    (path : String) (es : Entries) (d : List StructPtr)
    (hr : es.references r = true)
    (hw : reflectEntries (visitor T tasks) path es [] = .ok d) : ∃ x ∈ d, x.ref = r := by
  cases es with
  | nil => simp [Entries.references] at hr
  | cons key v rest =>
    rw [reflectEntries_cons, bind_ok_iff _ _ (reflectEntries_append T tasks path rest)] at hw
    obtain ⟨d1, d2, h1, h2, rfl⟩ := hw
    rw [Entries.references, Bool.or_eq_true] at hr
    rcases hr with hr | hr
    · obtain ⟨x, hx, hxr⟩ :=
        reflectRecursive_references T tasks r hd ht _ false v (path_index_ne path key) d1 hr h1
      exact ⟨x, List.mem_append_left _ hx, hxr⟩
    · obtain ⟨x, hx, hxr⟩ := reflectEntries_references T tasks r hd ht path rest d2 hr h2
      exact ⟨x, List.mem_append_right _ hx, hxr⟩
theorem reflectElems_references (T : Types) (tasks : Tasks) (r : Ref)
    (hd : (T r.ty).getDependencies = none) (ht : (T r.ty).isTask = true)
    (path : String) (i : Nat) (es : Values) (d : List StructPtr)
    (hr : es.references r = true)
    (hw : reflectElems (visitor T tasks) path i es [] = .ok d) : ∃ x ∈ d, x.ref = r := by
  cases es with
  | nil => simp [Values.references] at hr
  | cons v rest =>
    rw [reflectElems_cons, bind_ok_iff _ _ (reflectElems_append T tasks path (i + 1) rest)] at hw
    obtain ⟨d1, d2, h1, h2, rfl⟩ := hw
    rw [Values.references, Bool.or_eq_true] at hr
    rcases hr with hr | hr
    · obtain ⟨x, hx, hxr⟩ :=
        reflectRecursive_references T tasks r hd ht _ true v
          (path_index_ne path (toString i)) d1 hr h1
      exact ⟨x, List.mem_append_left _ hx, hxr⟩
    · obtain ⟨x, hx, hxr⟩ := reflectElems_references T tasks r hd ht path (i + 1) rest d2 hr h2
      exact ⟨x, List.mem_append_right _ hx, hxr⟩
end

/-- A task referenced from a field of `t` is among what the walk from `t` collects. -/
theorem getDependencies_references (T : Types) (tasks : Tasks) (t : StructPtr) (r : Ref)
    (hd : (T r.ty).getDependencies = none) (ht : (T r.ty).isTask = true)
    (hr : t.fields.references r = true) (d : List StructPtr)
    (hw : getDependencies T tasks t.elem = .ok d) : ∃ x ∈ d, x.ref = r := by
  rw [getDependencies_eq] at hw
  rcases hf : reflectFields (visitor T tasks) "" true t.fields [] with a | d1
  · rw [hf] at hw
    cases a <;> simp at hw
  · rw [hf] at hw
    simp only [Except.ok.injEq] at hw
    subst hw
    exact reflectFields_references T tasks r hd ht "" true t.fields d1 hr hf

/-! ## Keys of dependencies -/

theorem lookup_foldl_taskToId (tasks : Tasks) (acc : List (Ref × String)) (r : Ref)
    (k : String)
    (h : (tasks.foldl (fun m kt => (kt.2.ref, kt.1) :: m) acc).lookup r = some k) :
    (∃ t, (k, t) ∈ tasks ∧ t.ref = r) ∨ acc.lookup r = some k := by
  induction tasks generalizing acc with
  | nil => exact Or.inr h
  | cons kt rest ih =>
    rw [List.foldl_cons] at h
    rcases ih _ h with ⟨t, ht, hr⟩ | h2
    · exact Or.inl ⟨t, List.mem_cons_of_mem _ ht, hr⟩
    · rw [List.lookup_cons] at h2
      by_cases hb : (r == kt.2.ref) = true
      · rw [hb] at h2
        simp only [Option.some.injEq] at h2
        refine Or.inl ⟨kt.2, ?_, (beq_iff_eq.mp hb).symm⟩
        rw [← h2]
        exact List.mem_cons_self _ _
      · rw [Bool.not_eq_true] at hb
        rw [hb] at h2
        exact Or.inr h2

/-- A key found in `taskToId` is a key under which that task is registered. -/
theorem taskToId_lookup (tasks : Tasks) (r : Ref) (k : String)
    (h : (taskToId tasks).lookup r = some k) : ∃ t, (k, t) ∈ tasks ∧ t.ref = r := by
  rcases lookup_foldl_taskToId tasks [] r k h with h1 | h1
  · exact h1
  · simp at h1

/-- The keys `dependencyKeys` returns are the `taskToId` entries of the dependencies, in
order. -/
theorem dependencyKeys_ok (ids : List (Ref × String)) (deps : List StructPtr)
    (keys : List String) (h : dependencyKeys ids deps = .ok keys) :
    List.Forall₂ (fun dep key => ids.lookup dep.ref = some key) deps keys := by
  induction deps generalizing keys with
  | nil =>
    simp only [dependencyKeys, Except.ok.injEq] at h
    subst h
    exact List.Forall₂.nil
  | cons dep rest ih =>
    rw [dependencyKeys] at h
    cases hl : ids.lookup dep.ref with
    | none => rw [hl] at h; simp at h
    | some key =>
      rw [hl] at h
      cases hr : dependencyKeys ids rest with
      | error e => rw [hr] at h; simp at h
      | ok ks =>
        rw [hr] at h
        simp only [Except.ok.injEq] at h
        subst h
        exact List.Forall₂.cons hl (ih ks hr)

theorem forall₂_mem_left {α β : Type} {R : α → β → Prop} {l1 : List α} {l2 : List β}
    (h : List.Forall₂ R l1 l2) {a : α} (ha : a ∈ l1) : ∃ b ∈ l2, R a b := by
  induction h with
  | nil => simp at ha
  | cons hab _ ih =>
    rcases List.mem_cons.mp ha with rfl | ha
    · exact ⟨_, List.mem_cons_self _ _, hab⟩
    · obtain ⟨b, hb, hr⟩ := ih ha
      exact ⟨b, List.mem_cons_of_mem _ hb, hr⟩

/-! ## The loop of `FindTaskDependencies` -/

/-- When the loop returns a mapping, the entry of every key is what the loop body
computed for its task. -/
theorem findLoop_lookup (T : Types) (tasks rest : Tasks)
    (edges : List (String × List String)) (hn : (rest.map Prod.fst).Nodup)
    (h : findLoop T tasks rest = .ok edges) (k : String) (t : StructPtr)
    (hm : (k, t) ∈ rest) :
    ∃ keys, taskEdges T tasks t = .ok keys ∧ edges.lookup k = some keys := by
  induction rest generalizing edges with
  | nil => simp at hm
  | cons kt rest ih =>
    obtain ⟨k0, t0⟩ := kt
    rw [findLoop] at h
    cases h0 : taskEdges T tasks t0 with
    | error e => rw [h0] at h; simp at h
    | ok keys0 =>
      rw [h0] at h
      cases hr : findLoop T tasks rest with
      | error e => rw [hr] at h; simp at h
      | ok edges0 =>
        rw [hr] at h
        simp only [Except.ok.injEq] at h
        subst h
        rw [List.map_cons, List.nodup_cons] at hn
        rcases List.mem_cons.mp hm with heq | hm2
        · obtain ⟨rfl, rfl⟩ := Prod.mk.inj heq
          exact ⟨keys0, h0, by simp [List.lookup_cons]⟩
        · obtain ⟨keys, hk1, hk2⟩ := ih edges0 hn.2 hr hm2
          refine ⟨keys, hk1, ?_⟩
          have hne : k ≠ k0 := by
            intro hkk
            rw [hkk] at hm2
            exact hn.1 (List.mem_map.mpr ⟨(k0, t), hm2, rfl⟩)
          rw [List.lookup_cons, beq_false_of_ne hne]
          exact hk2

/-- The loop returns a mapping when the body succeeds on every task. -/
theorem findLoop_ok (T : Types) (tasks rest : Tasks)
    (h : ∀ kt ∈ rest, ∃ keys, taskEdges T tasks kt.2 = .ok keys) :
    ∃ edges, findLoop T tasks rest = .ok edges := by
  induction rest with
  | nil => exact ⟨[], rfl⟩
  | cons kt rest ih =>
    obtain ⟨k0, t0⟩ := kt
    obtain ⟨keys0, h0⟩ := h (k0, t0) (List.mem_cons_self _ _)
    obtain ⟨edges0, hr⟩ := ih (fun kt hkt => h kt (List.mem_cons_of_mem _ hkt))
    exact ⟨(k0, keys0) :: edges0, by rw [findLoop, h0, hr]⟩

/-- The loop ends fatally when the body fails on some task. -/
theorem findLoop_error (T : Types) (tasks rest : Tasks) (k : String) (t : StructPtr)
    (hm : (k, t) ∈ rest) (e : Fatal) (he : taskEdges T tasks t = .error e) :
    ∃ e1, findLoop T tasks rest = .error e1 := by
  induction rest with
  | nil => simp at hm
  | cons kt rest ih =>
    obtain ⟨k0, t0⟩ := kt
    rw [findLoop]
    cases h0 : taskEdges T tasks t0 with
    | error e0 => exact ⟨e0, rfl⟩
    | ok keys0 =>
      rcases List.mem_cons.mp hm with heq | hm
      · obtain ⟨rfl, rfl⟩ := Prod.mk.inj heq
        rw [h0] at he
        simp at he
      · obtain ⟨e1, h1⟩ := ih hm
        exact ⟨e1, by rw [h1]⟩

/-- A fatal exit of the loop is the fatal exit of the body on some task. -/
theorem findLoop_error_source (T : Types) (tasks rest : Tasks) (e : Fatal)
    (h : findLoop T tasks rest = .error e) : ∃ kt ∈ rest, taskEdges T tasks kt.2 = .error e := by
  induction rest with
  | nil => simp [findLoop] at h
  | cons kt rest ih =>
    obtain ⟨k0, t0⟩ := kt
    rw [findLoop] at h
    cases h0 : taskEdges T tasks t0 with
    | error e0 =>
      rw [h0] at h
      simp only [Except.error.injEq] at h
      subst h
      exact ⟨(k0, t0), List.mem_cons_self _ _, h0⟩
    | ok keys0 =>
      rw [h0] at h
      cases hr : findLoop T tasks rest with
      | error e1 =>
        rw [hr] at h
        simp only [Except.error.injEq] at h
        subst h
        obtain ⟨kt, hkt, hke⟩ := ih hr
        exact ⟨kt, List.mem_cons_of_mem _ hkt, hke⟩
      | ok edges0 => rw [hr] at h; simp at h

/-- A fatal exit of the body while finding dependencies comes from the walk of a task
that does not declare its dependencies. -/
theorem taskEdges_findingDependencies (T : Types) (tasks : Tasks) (t : StructPtr)
    (w : WalkError) (h : taskEdges T tasks t = .error (.findingDependencies w)) :
    (T t.ty).getDependencies = none ∧ t.fields.unclassified T = true := by
  have key : ∀ deps, dependencyKeys (taskToId tasks) deps ≠ .error (.findingDependencies w) := by
    intro deps
    induction deps with
    | nil => simp [dependencyKeys]
    | cons dep rest ih =>
      rw [dependencyKeys]
      cases (taskToId tasks).lookup dep.ref with
      | none => simp
      | some key =>
        cases hr : dependencyKeys (taskToId tasks) rest with
        | error e =>
          intro h2
          simp only [Except.error.injEq] at h2
          subst h2
          exact ih hr
        | ok ks => simp
  unfold taskEdges taskDependencies at h
  cases hg : (T t.ty).getDependencies with
  | some G =>
    rw [hg] at h
    exact absurd h (key _)
  | none =>
    rw [hg] at h
    refine ⟨rfl, ?_⟩
    simp only [reflectForDependencies] at h
    cases hd : getDependencies T tasks t.elem with
    | error e =>
      rw [hd] at h
      simp only [Except.error.injEq] at h
      rw [h] at hd
      exact getDependencies_finding T tasks t w hd
    | ok d =>
      rw [hd] at h
      exact absurd h (key _)

theorem toList_unclassified (T : Types) (name : String) (v : Value)
    (hv : v.unclassified T true = true) :
    ∀ fs : Fields, (name, v) ∈ fs.toList → fs.unclassified T = true
  | .nil, hm => by simp [Fields.toList] at hm
  | .cons n0 v0 rest, hm => by
    rw [Fields.toList, List.mem_cons] at hm
    rw [Fields.unclassified, Bool.or_eq_true]
    rcases hm with heq | hm
    · obtain ⟨rfl, rfl⟩ := Prod.mk.inj heq
      exact Or.inl hv
    · exact Or.inr (toList_unclassified T name v hv rest hm)

/-! ## The claims about dependency discovery -/

/-- C1, as stated, fails at concrete universes.  A task that declares its dependencies
(here: none) and has a field pointing to the SSH key task is reported with no dependency.
An instance with a field pointing to a task that is a `HasDependencies` is reported with
what that task declares (nothing), not with the task's key.  When the SSH key task is
registered under two keys, only the key assigned last is reported, whichever order the
loop takes. -/
theorem C1_counterexample :
    (("declared/d", sampleDeclared) ∈ [("sshkey/k", sampleKey), ("declared/d", sampleDeclared)]
      ∧ sampleDeclared.fields.references sampleKey.ref = true
      ∧ ∃ edges keys,
          FindTaskDependencies sampleTypes
            [("sshkey/k", sampleKey), ("declared/d", sampleDeclared)] = .ok edges
          ∧ edges.lookup "declared/d" = some keys ∧ "sshkey/k" ∉ keys)
    ∧ (sampleInstanceOfDeclared.fields.references sampleDeclared.ref = true
      ∧ ∃ edges keys,
          FindTaskDependencies sampleTypes
            [("declared/d", sampleDeclared), ("instance/i", sampleInstanceOfDeclared)] = .ok edges
          ∧ edges.lookup "instance/i" = some keys ∧ "declared/d" ∉ keys)
    ∧ (sampleInstance.fields.references sampleKey.ref = true
      ∧ (∃ edges keys,
          FindTaskDependencies sampleTypes
            [("sshkey/k", sampleKey), ("sshkey/alias", sampleKey),
              ("instance/i", sampleInstance)] = .ok edges
          ∧ edges.lookup "instance/i" = some keys ∧ "sshkey/k" ∉ keys)
      ∧ ∃ edges keys,
          FindTaskDependencies sampleTypes
            [("sshkey/alias", sampleKey), ("sshkey/k", sampleKey),
              ("instance/i", sampleInstance)] = .ok edges
          ∧ edges.lookup "instance/i" = some keys ∧ "sshkey/alias" ∉ keys) :=
  ⟨⟨by simp, rfl, [("sshkey/k", []), ("declared/d", [])], [], rfl, rfl, by simp⟩,
    ⟨rfl, [("declared/d", []), ("instance/i", [])], [], rfl, rfl, by simp⟩,
    ⟨rfl,
      ⟨[("sshkey/k", []), ("sshkey/alias", []), ("instance/i", ["sshkey/alias"])],
        ["sshkey/alias"], rfl, rfl, by decide⟩,
      ⟨[("sshkey/alias", []), ("sshkey/k", []), ("instance/i", ["sshkey/k"])],
        ["sshkey/k"], rfl, rfl, by decide⟩⟩⟩

/-- C1, amended: when `FindTaskDependencies` returns a mapping, a task `t` under key `kt`
that does not declare its dependencies, with a field that references (through pointers,
interfaces, slices and maps, not through another struct) a task `u` whose type is a
`Task` and not a `HasDependencies`, and `u` is registered under the key `ku` only, has
`ku` in its list of dependencies. -/
theorem FindTaskDependencies_reports_reference (T : Types) (tasks : Tasks)
    (kt ku : String) (t u : StructPtr) (edges : List (String × List String))
    (hn : (tasks.map Prod.fst).Nodup) (ht : (kt, t) ∈ tasks) (_hu : (ku, u) ∈ tasks)
    (honly : ∀ k u1, (k, u1) ∈ tasks → u1.ref = u.ref → k = ku)
    (htd : (T t.ty).getDependencies = none)
    (hud : (T u.ty).getDependencies = none) (hut : (T u.ty).isTask = true)
    (href : t.fields.references u.ref = true)
    (hok : FindTaskDependencies T tasks = .ok edges) :
    ∃ keys, edges.lookup kt = some keys ∧ ku ∈ keys := by
  obtain ⟨keys, hte, hlk⟩ := findLoop_lookup T tasks tasks edges hn hok kt t ht
  refine ⟨keys, hlk, ?_⟩
  unfold taskEdges taskDependencies at hte
  rw [htd] at hte
  simp only [reflectForDependencies] at hte
  cases hd : getDependencies T tasks t.elem with
  | error e => rw [hd] at hte; simp at hte
  | ok d =>
    rw [hd] at hte
    obtain ⟨x, hx, hxr⟩ := getDependencies_references T tasks t u.ref hud hut href d hd
    obtain ⟨key, hkey, hl⟩ := forall₂_mem_left (dependencyKeys_ok _ _ _ hte) hx
    obtain ⟨u1, hu1, hr1⟩ := taskToId_lookup tasks x.ref key hl
    have := honly key u1 hu1 (hr1.trans hxr)
    rw [← this]
    exact hkey

/-- C1, amended, at the universe of an SSH key task and an instance task pointing
to it. -/
theorem FindTaskDependencies_reports_reference_witness :
    ∃ keys,
      List.lookup "instance/i" [("sshkey/k", []), ("instance/i", ["sshkey/k"])] = some keys
        ∧ "sshkey/k" ∈ keys :=
  FindTaskDependencies_reports_reference sampleTypes
    [("sshkey/k", sampleKey), ("instance/i", sampleInstance)] "instance/i" "sshkey/k"
    sampleInstance sampleKey [("sshkey/k", []), ("instance/i", ["sshkey/k"])]
    (by decide) (by simp) (by simp)
    (by
      intro k u1 hm hr
      simp only [List.mem_cons, Prod.mk.injEq, List.mem_singleton, List.not_mem_nil,
        or_false] at hm
      rcases hm with ⟨rfl, _⟩ | ⟨_, rfl⟩
      · rfl
      · exact absurd hr (by decide))
    rfl rfl rfl rfl rfl

/-- C2: for a task `t` under key `kt` that is a `HasDependencies`, the loop body computes
the keys of exactly the tasks `t.GetDependencies(tasks)` returns; when
`FindTaskDependencies` returns a mapping, the entry of `kt` lists, in the same order and
with the same multiplicity, for every returned task a key under which it is registered
(the one in `taskToId`); and a mapping is returned when the loop body succeeds on every
task. -/
theorem FindTaskDependencies_declared (T : Types) (tasks : Tasks) (kt : String)
    (t : StructPtr) (GetDependencies : StructPtr → Tasks → List StructPtr)
    (hn : (tasks.map Prod.fst).Nodup) (ht : (kt, t) ∈ tasks)
    (hG : (T t.ty).getDependencies = some GetDependencies) :
    taskEdges T tasks t = dependencyKeys (taskToId tasks) (GetDependencies t tasks)
    ∧ (∀ edges, FindTaskDependencies T tasks = .ok edges →
        ∃ keys, edges.lookup kt = some keys
          ∧ List.Forall₂
              (fun dep key => (taskToId tasks).lookup dep.ref = some key
                ∧ ∃ u, (key, u) ∈ tasks ∧ u.ref = dep.ref)
              (GetDependencies t tasks) keys)
    ∧ ((∀ kt1 ∈ tasks, ∃ keys, taskEdges T tasks kt1.2 = .ok keys) →
        ∃ edges, FindTaskDependencies T tasks = .ok edges) := by
  have hte : taskEdges T tasks t
      = dependencyKeys (taskToId tasks) (GetDependencies t tasks) := by
    unfold taskEdges taskDependencies
    rw [hG]
  refine ⟨hte, ?_, findLoop_ok T tasks tasks⟩
  intro edges hok
  obtain ⟨keys, hk, hlk⟩ := findLoop_lookup T tasks tasks edges hn hok kt t ht
  refine ⟨keys, hlk, ?_⟩
  rw [hte] at hk
  refine (dependencyKeys_ok _ _ _ hk).imp ?_
  intro dep key hl
  exact ⟨hl, taskToId_lookup tasks dep.ref key hl⟩

/-- C2 at a universe with a task that declares the SSH key task twice and has a field
pointing to the instance task: its entry is the SSH key's key twice. -/
theorem FindTaskDependencies_declared_witness :
    FindTaskDependencies pinnedTypes
        [("sshkey/k", sampleKey), ("instance/i", sampleInstance), ("pinned/p", samplePinned)]
      = .ok [("sshkey/k", []), ("instance/i", ["sshkey/k"]), ("pinned/p", ["sshkey/k", "sshkey/k"])]
    ∧ taskEdges pinnedTypes
        [("sshkey/k", sampleKey), ("instance/i", sampleInstance), ("pinned/p", samplePinned)]
        samplePinned
      = dependencyKeys
          (taskToId
            [("sshkey/k", sampleKey), ("instance/i", sampleInstance), ("pinned/p", samplePinned)])
          [sampleKey, sampleKey] :=
  ⟨rfl,
    (FindTaskDependencies_declared pinnedTypes
      [("sshkey/k", sampleKey), ("instance/i", sampleInstance), ("pinned/p", samplePinned)]
      "pinned/p" samplePinned (fun _ _ => [sampleKey, sampleKey]) (by decide) (by simp) rfl).1⟩

/-- C4, as stated, fails.  A task whose field `Spec` holds a plain struct pointing to the
SSH key task makes `getDependencies` fail on that struct, and `FindTaskDependencies`
returns no mapping.  A task whose field points to a resource holder, which is not a task,
is reported without the task the holder's own field points to. -/
theorem C4_counterexample :
    (getDependencies sampleTypes [("sshkey/k", sampleKey), ("instance/n", sampleNested)]
        sampleNested.elem
      = .error (.findingDependencies (.unhandledType ".Spec" "Spec"))
      ∧ FindTaskDependencies sampleTypes [("sshkey/k", sampleKey), ("instance/n", sampleNested)]
        = .error (.findingDependencies (.unhandledType ".Spec" "Spec")))
    ∧ FindTaskDependencies sampleTypes [("sshkey/k", sampleKey), ("instance/h", sampleHolder)]
        = .ok [("sshkey/k", []), ("instance/h", [])] :=
  ⟨⟨rfl, rfl⟩, rfl⟩

/-- C4, amended: a struct value below the root whose type is neither a `HasDependencies`
nor a `Task` is never recursed into.  When it is not addressable (held by value in a map
or an interface) the visitor panics at `v.Addr()`.  Otherwise the walk returns the
"Unhandled type" error at it unless it is a `Resource`, `*ResourceHolder` or
`*pkix.Name`, and then skips it without visiting its fields and without adding a
dependency.  So a task that does not declare its dependencies and has a field holding a
struct of an unhandled type gets no result from `getDependencies`: it ends in the fatal
exit of line 106, or in the panic when a struct that is not addressable is visited first,
and `FindTaskDependencies` returns no mapping. -/
theorem getDependencies_nested_struct (T : Types) (tasks : Tasks) (ty : String) (addr : Nat)
    (fs : Fields) (hd : (T ty).getDependencies = none) (hnt : (T ty).isTask = false) :
    (∀ path canAddr s, path ≠ "" →
        reflectRecursive (visitor T tasks) path canAddr (.struct ty addr fs) s
          = if canAddr = false then .error (.panic path)
            else if unhandledStruct T ty then .error (.error (.unhandledType path ty))
            else .ok s)
    ∧ (unhandledStruct T ty = true →
        ∀ kt t name, (kt, t) ∈ tasks → (T t.ty).getDependencies = none →
          (name, Value.struct ty addr fs) ∈ t.fields.toList →
          (∃ e, getDependencies T tasks t.elem = .error e)
            ∧ (t.fields.unaddressable = false →
                ∃ w, getDependencies T tasks t.elem = .error (.findingDependencies w))
            ∧ ∃ e, FindTaskDependencies T tasks = .error e) := by
  constructor
  · intro path canAddr s hp
    rw [reflectRecursive]
    cases canAddr with
    | false => simp [visitor, if_neg hp, visitStruct]
    | true =>
      simp only [visitor, if_neg hp, visitStruct, unhandledStruct, hd, hnt,
        Bool.true_eq_false, if_false]
      by_cases h1 : (T ty).isResource = true
      · simp [h1]
      · by_cases h2 : (T ty).isResourceHolder = true
        · simp [h1, h2]
        · by_cases h3 : (T ty).isPkixName = true
          · simp [h1, h2, h3]
          · simp [h1, h2, h3]
  · intro hu kt t name ht htd hf
    have hbad : t.fields.unclassified T = true :=
      toList_unclassified T name _
        (by rw [Value.unclassified]; simp [hu]) t.fields hf
    obtain ⟨e, he⟩ := (getDependencies_error_iff T tasks t).mpr (by simp [hbad])
    refine ⟨⟨e, he⟩, ?_, ?_⟩
    · intro hna
      rcases getDependencies_error_kind T tasks _ e he with ⟨w, hw⟩ | ⟨p, hp⟩
      · exact ⟨w, by rw [he, hw]⟩
      · rw [hp] at he
        have := getDependencies_panic T tasks t p he
        rw [hna] at this
        exact absurd this (by decide)
    · refine findLoop_error T tasks tasks kt t ht e ?_
      unfold taskEdges taskDependencies
      rw [htd]
      simp only [reflectForDependencies, he]

/-- C4, amended, at the task whose field `Spec` holds a plain struct, and at a resource
holder held by value in a map, where the visitor panics. -/
theorem getDependencies_nested_struct_witness :
    ((∃ e, getDependencies sampleTypes [("sshkey/k", sampleKey), ("instance/n", sampleNested)]
        sampleNested.elem = .error e)
      ∧ (sampleNested.fields.unaddressable = false →
          ∃ w, getDependencies sampleTypes
            [("sshkey/k", sampleKey), ("instance/n", sampleNested)]
            sampleNested.elem = .error (.findingDependencies w))
      ∧ ∃ e, FindTaskDependencies sampleTypes
          [("sshkey/k", sampleKey), ("instance/n", sampleNested)] = .error e)
    ∧ FindTaskDependencies sampleTypes [("instance/m", sampleMapped)]
        = .error (.addrPanic ".Files[a]") :=
  ⟨(getDependencies_nested_struct sampleTypes
      [("sshkey/k", sampleKey), ("instance/n", sampleNested)] "Spec" 6
      (.cons "SSHKey" (.ptr sampleKey.elem) .nil) rfl rfl).2 rfl "instance/n" sampleNested
      "Spec" (by simp) rfl (by simp [sampleNested, Fields.toList]),
    rfl⟩

/-- C5, as stated, fails in its second half: every value of the task below is primitive,
a string, a slice or a struct, and discovery still ends in the fatal error, because the
struct in the slice is of an unhandled type. -/
theorem C5_counterexample :
    sampleTagged.elem.kindsHandled = true
    ∧ FindTaskDependencies sampleTypes [("instance/t", sampleTagged)]
        = .error (.findingDependencies (.unhandledType ".Tags[0]" "Tag")) :=
  ⟨rfl, rfl⟩

/-- C5, amended: `getDependencies` returns no result for a task exactly when a value
below the task's struct (reached through pointers, interfaces, slices and maps, not
through another struct) is of an unhandled kind, or is an addressable struct that is none
of `HasDependencies`, `Task`, `Resource`, `*ResourceHolder`, `*pkix.Name`, or is a struct
that is not addressable (held by value in a map or an interface).  It ends in the fatal
error path of line 106 only when one of the first two is there, and in the panic of
`v.Addr()` (line 82) only when the third is; so when no struct is unaddressable, the fatal
error path is taken exactly when one of the first two is there.  A universe with such a
task that does not declare its dependencies makes `FindTaskDependencies` return no
mapping, and a universe in which no such task holds one of the first two never ends in
the fatal exit of discovery. -/
theorem discovery_error_iff (T : Types) (tasks : Tasks) :
    (∀ t : StructPtr,
        ((∃ e, getDependencies T tasks t.elem = .error e)
          ↔ (t.fields.unclassified T || t.fields.unaddressable) = true)
        ∧ (∀ w, getDependencies T tasks t.elem = .error (.findingDependencies w) →
            t.fields.unclassified T = true)
        ∧ (∀ p, getDependencies T tasks t.elem = .error (.addrPanic p) →
            t.fields.unaddressable = true)
        ∧ (t.fields.unaddressable = false →
            ((∃ w, getDependencies T tasks t.elem = .error (.findingDependencies w))
              ↔ t.fields.unclassified T = true)))
    ∧ (∀ kt t, (kt, t) ∈ tasks → (T t.ty).getDependencies = none →
        (t.fields.unclassified T || t.fields.unaddressable) = true →
        ∃ e, FindTaskDependencies T tasks = .error e)
    ∧ ((∀ kt ∈ tasks, (T kt.2.ty).getDependencies = none →
          kt.2.fields.unclassified T = false) →
        ∀ w, FindTaskDependencies T tasks ≠ .error (.findingDependencies w)) := by
  refine ⟨?_, ?_, ?_⟩
  · intro t
    refine ⟨getDependencies_error_iff T tasks t, getDependencies_finding T tasks t,
      getDependencies_panic T tasks t, ?_⟩
    intro hna
    constructor
    · rintro ⟨w, hw⟩
      exact getDependencies_finding T tasks t w hw
    · intro hu
      obtain ⟨e, he⟩ := (getDependencies_error_iff T tasks t).mpr (by simp [hu])
      rcases getDependencies_error_kind T tasks _ e he with ⟨w, hw⟩ | ⟨p, hp⟩
      · exact ⟨w, by rw [he, hw]⟩
      · rw [hp] at he
        have := getDependencies_panic T tasks t p he
        rw [hna] at this
        exact absurd this (by decide)
  · intro kt t ht htd hbad
    obtain ⟨e, he⟩ := (getDependencies_error_iff T tasks t).mpr hbad
    refine findLoop_error T tasks tasks kt t ht e ?_
    unfold taskEdges taskDependencies
    rw [htd]
    simp only [reflectForDependencies, he]
  · intro hall w hw
    obtain ⟨kt, hkt, hke⟩ := findLoop_error_source T tasks tasks _ hw
    obtain ⟨h1, h2⟩ := taskEdges_findingDependencies T tasks kt.2 w hke
    rw [hall kt hkt h1] at h2
    exact absurd h2 (by decide)

/-- C5, amended, at a task with a field of kind `func`, and at a task whose interface
field holds a plain struct by value, where the visitor panics instead of returning the
"Unhandled type" error. -/
theorem discovery_error_iff_witness :
    (∃ e, FindTaskDependencies sampleTypes [("instance/f", sampleFunc)] = .error e)
    ∧ getDependencies sampleTypes [("instance/b", sampleBoxed)] sampleBoxed.elem
        = .error (.addrPanic ".X")
    ∧ sampleBoxed.fields.unaddressable = true :=
  ⟨(discovery_error_iff sampleTypes [("instance/f", sampleFunc)]).2.1 "instance/f" sampleFunc
      (by simp) rfl rfl,
    rfl,
    (discovery_error_iff sampleTypes [("instance/b", sampleBoxed)]).1 sampleBoxed |>.2.2.1
      ".X" rfl⟩

/-! ## The in-degree table -/

theorem decrementAll_apply (inDegree : String → Nat) (ks : List String) (x : String) :
    decrementAll inDegree ks x = inDegree x - ks.count x := by
  unfold decrementAll
  induction ks generalizing inDegree with
  | nil => simp
  | cons k rest ih =>
    rw [List.foldl_cons, ih, List.count_cons]
    by_cases h : x = k
    · subst h
      simp
      omega
    · have h2 : (k == x) = false := beq_false_of_ne (Ne.symm h)
      simp [h, h2]

theorem dependentsOf_subset_keys (edges : Edges) (r k : String)
    (h : k ∈ dependentsOf edges r) : k ∈ edges.map Prod.fst := by
  unfold dependentsOf at h
  obtain ⟨e, he, rfl⟩ := List.mem_map.mp h
  exact List.mem_map.mpr ⟨e, (List.mem_filter.mp he).1, rfl⟩

theorem lookup_of_mem (edges : Edges) (hn : (edges.map Prod.fst).Nodup) (k : String)
    (ds : List String) (h : (k, ds) ∈ edges) : edges.lookup k = some ds := by
  induction edges with
  | nil => simp at h
  | cons e rest ih =>
    obtain ⟨k0, ds0⟩ := e
    rw [List.map_cons, List.nodup_cons] at hn
    rcases List.mem_cons.mp h with heq | h2
    · obtain ⟨rfl, rfl⟩ := Prod.mk.inj heq
      simp [List.lookup_cons]
    · have hne : k ≠ k0 := by
        intro hkk
        rw [hkk] at h2
        exact hn.1 (List.mem_map.mpr ⟨(k0, ds), h2, rfl⟩)
      rw [List.lookup_cons, beq_false_of_ne hne]
      exact ih hn.2 h2

theorem mem_of_lookup (edges : Edges) (k : String) (ds : List String)
    (h : edges.lookup k = some ds) : (k, ds) ∈ edges := by
  induction edges with
  | nil => simp at h
  | cons e rest ih =>
    obtain ⟨k0, ds0⟩ := e
    rw [List.lookup_cons] at h
    by_cases hb : (k == k0) = true
    · rw [hb] at h
      simp only [Option.some.injEq] at h
      rw [beq_iff_eq] at hb
      rw [hb, h]
      exact List.mem_cons_self _ _
    · rw [Bool.not_eq_true] at hb
      rw [hb] at h
      exact List.mem_cons_of_mem _ (ih h)

/-- With distinct keys, a dependency of `k` in the collapsed list is a dependency in the
mapping, and conversely. -/
theorem mem_dependenciesOf (edges : Edges) (hn : (edges.map Prod.fst).Nodup) (k d : String) :
    d ∈ dependenciesOf edges k ↔ dependsOn edges k d := by
  unfold dependenciesOf dependsOn
  rw [List.mem_dedup]
  constructor
  · intro h
    cases hl : edges.lookup k with
    | none => rw [hl] at h; simp at h
    | some ds =>
      rw [hl] at h
      exact ⟨ds, mem_of_lookup edges k ds hl, h⟩
  · rintro ⟨ds, hm, hd⟩
    rw [lookup_of_mem edges hn k ds hm]
    exact hd

/-- A key occurs among the dependents of `r` once if it depends on `r` and not at all
otherwise. -/
theorem count_dependentsOf (edges : Edges) (hn : (edges.map Prod.fst).Nodup) (r k : String) :
    (dependentsOf edges r).count k = if r ∈ dependenciesOf edges k then 1 else 0 := by
  induction edges with
  | nil => simp [dependentsOf, dependenciesOf]
  | cons e rest ih =>
    obtain ⟨k0, ds0⟩ := e
    have hn2 := hn
    rw [List.map_cons, List.nodup_cons] at hn2
    have hstep : dependentsOf ((k0, ds0) :: rest) r
        = (if r ∈ ds0 then [k0] else []) ++ dependentsOf rest r := by
      unfold dependentsOf
      by_cases hr : r ∈ ds0 <;> simp [List.filter_cons, hr]
    rw [hstep, List.count_append, ih hn2.2]
    by_cases hk : k = k0
    · subst hk
      have h0 : ∀ r1, (dependentsOf rest r1).count k = 0 := by
        intro r1
        rw [List.count_eq_zero]
        intro hmem
        exact hn2.1 (dependentsOf_subset_keys rest r1 k hmem)
      rw [← ih hn2.2, h0]
      have hd : dependenciesOf ((k, ds0) :: rest) k = ds0.dedup := by
        simp [dependenciesOf, List.lookup_cons]
      rw [hd]
      by_cases hr : r ∈ ds0
      · have hr2 : r ∈ ds0.dedup := List.mem_dedup.mpr hr
        simp [hr, hr2]
      · have hr2 : r ∉ ds0.dedup := fun h => hr (List.mem_dedup.mp h)
        simp [hr, hr2]
    · have hd : dependenciesOf ((k0, ds0) :: rest) k = dependenciesOf rest k := by
        simp [dependenciesOf, List.lookup_cons, beq_false_of_ne hk]
      rw [hd]
      have hc : (if r ∈ ds0 then [k0] else []).count k = 0 := by
        rw [List.count_eq_zero]
        by_cases hr : r ∈ ds0 <;> simp [hr, hk]
      rw [hc, Nat.zero_add]

theorem count_dependents_flatten (edges : Edges) (hn : (edges.map Prod.fst).Nodup)
    (ready : List String) (k : String) :
    ((ready.map (dependentsOf edges)).flatten).count k
      = (ready.filter (fun r => r ∈ dependenciesOf edges k)).length := by
  induction ready with
  | nil => simp
  | cons r rest ih =>
    rw [List.map_cons, List.flatten_cons, List.count_append, ih, count_dependentsOf edges hn,
      List.filter_cons]
    by_cases hr : r ∈ dependenciesOf edges k <;> simp [hr]
    omega

/-- Counting the dependencies that are not yet in the order, after a round that appends
`ready`. -/
theorem pending_after_round (deps order ready : List String) (hd : deps.Nodup)
    (hr : ready.Nodup) (hdisj : ∀ r ∈ ready, r ∉ order) :
    (deps.filter (fun d => d ∉ order ++ ready)).length
      = (deps.filter (fun d => d ∉ order)).length
          - (ready.filter (fun r => r ∈ deps)).length := by
  have hperm : (ready.filter (fun r => r ∈ deps)).Perm
      ((deps.filter (fun d => d ∉ order)).filter (fun d => d ∈ ready)) := by
    rw [List.perm_ext_iff_of_nodup (hr.filter _) ((hd.filter _).filter _)]
    intro a
    simp only [List.mem_filter, decide_eq_true_eq, decide_not, Bool.not_eq_true',
      decide_eq_false_iff_not]
    constructor
    · rintro ⟨h1, h2⟩
      exact ⟨⟨h2, hdisj a h1⟩, h1⟩
    · rintro ⟨⟨h1, _⟩, h3⟩
      exact ⟨h3, h1⟩
  have hsplit := List.length_eq_length_filter_add (l := deps.filter (fun d => d ∉ order))
    (fun d => decide (d ∈ ready))
  have hrest : (deps.filter (fun d => d ∉ order)).filter (fun d => !decide (d ∈ ready))
      = deps.filter (fun d => d ∉ order ++ ready) := by
    rw [List.filter_filter]
    congr 1
    funext d
    simp [not_or, Bool.and_comm]
  rw [hrest] at hsplit
  rw [hperm.length_eq]
  omega

/-! ## Progress and the invariant of the rounds -/

/-- In a mapping without a cycle, some key among any remaining ones depends on none of
them. -/
theorem exists_no_pending (edges : Edges) (hacyc : Acyclic edges) (remaining : List String)
    (hne : remaining ≠ []) :
    ∃ m ∈ remaining, ∀ d, dependsOn edges m d → d ∉ remaining := by
  obtain ⟨k0, hk0⟩ := List.exists_mem_of_ne_nil remaining hne
  let below : {k // k ∈ remaining} → {k // k ∈ remaining} → Prop :=
    fun x y => Relation.TransGen (dependsOn edges) y.1 x.1
  haveI : IsTrans {k // k ∈ remaining} below := ⟨fun _ _ _ hab hbc => hbc.trans hab⟩
  haveI : IsIrrefl {k // k ∈ remaining} below := ⟨fun a h => hacyc a.1 h⟩
  have wf : WellFounded below := Finite.wellFounded_of_trans_of_irrefl below
  obtain ⟨m, _, hmin⟩ := wf.has_min Set.univ ⟨⟨k0, hk0⟩, trivial⟩
  refine ⟨m.1, m.2, ?_⟩
  intro d hd hmem
  exact hmin ⟨d, hmem⟩ trivial (Relation.TransGen.single hd)

theorem sortKeys_perm (ks : List String) : (sortKeys ks).Perm ks :=
  List.perm_insertionSort _ ks

theorem mem_sortKeys (ks : List String) (k : String) : k ∈ sortKeys ks ↔ k ∈ ks :=
  (sortKeys_perm ks).mem_iff

/-- On a mapping without a cycle the rounds end with an order that holds every key once
and every dependency before its dependents. -/
theorem kahnLoop_acyclic (edges : Edges) (hw : WellFormed edges) (hacyc : Acyclic edges) :
    ∀ (fuel : Nat) (inDegree : String → Nat) (remaining order : List String),
      remaining.length ≤ fuel →
      (order ++ remaining).Perm (edges.map Prod.fst) →
      (∀ k, inDegree k = ((dependenciesOf edges k).filter (fun d => d ∉ order)).length) →
      (∀ k ∈ order, ∀ d ∈ dependenciesOf edges k, order.indexOf d < order.indexOf k) →
      ∃ final, kahnLoop edges fuel inDegree remaining order = .ok final
        ∧ final.Perm (edges.map Prod.fst)
        ∧ ∀ k ∈ final, ∀ d ∈ dependenciesOf edges k, final.indexOf d < final.indexOf k := by
  intro fuel
  induction fuel with
  | zero =>
    intro inDegree remaining order hlen hperm _ hord
    have hnil : remaining = [] := List.length_eq_zero.mp (Nat.le_zero.mp hlen)
    subst hnil
    refine ⟨order, by simp [kahnLoop], ?_, hord⟩
    simpa using hperm
  | succ fuel ih =>
    intro inDegree remaining order hlen hperm hdeg hord
    by_cases hnil : remaining = []
    · subst hnil
      refine ⟨order, by simp [kahnLoop], ?_, hord⟩
      simpa using hperm
    · have hnodup : (order ++ remaining).Nodup := hperm.nodup_iff.mpr hw.1
      obtain ⟨hno, hnr, hdisj⟩ := List.nodup_append.mp hnodup
      -- some remaining key has in-degree zero
      obtain ⟨m, hm, hmin⟩ := exists_no_pending edges hacyc remaining hnil
      have hpending : ∀ k, inDegree k = 0 → ∀ d ∈ dependenciesOf edges k, d ∈ order := by
        intro k hk d hd
        by_contra hcon
        have : d ∈ (dependenciesOf edges k).filter (fun d => d ∉ order) := by
          simp [List.mem_filter, hd, hcon]
        have hpos := List.length_pos_of_mem this
        rw [← hdeg k] at hpos
        omega
      have hm0 : inDegree m = 0 := by
        rw [hdeg m, List.length_eq_zero, List.filter_eq_nil_iff]
        intro d hd
        have hdep := (mem_dependenciesOf edges hw.1 m d).mp hd
        obtain ⟨ds, hds, hdds⟩ := hdep
        have hkey : d ∈ edges.map Prod.fst := hw.2 m ds hds d hdds
        have hmem : d ∈ order ++ remaining := hperm.mem_iff.mpr hkey
        rcases List.mem_append.mp hmem with h1 | h1
        · simpa using h1
        · exact absurd h1 (hmin d ⟨ds, hds, hdds⟩)
      have hready : ∀ k, k ∈ sortKeys (remaining.filter (fun k => inDegree k = 0))
          ↔ k ∈ remaining ∧ inDegree k = 0 := by
        intro k
        rw [mem_sortKeys, List.mem_filter, decide_eq_true_eq]
      have hrne : sortKeys (remaining.filter (fun k => inDegree k = 0)) ≠ [] := by
        intro h
        have := (hready m).mpr ⟨hm, hm0⟩
        rw [h] at this
        simp at this
      have hrn : (sortKeys (remaining.filter (fun k => inDegree k = 0))).Nodup :=
        (sortKeys_perm _).nodup_iff.mpr (hnr.filter _)
      have hrdisj : ∀ r ∈ sortKeys (remaining.filter (fun k => inDegree k = 0)),
          r ∉ order := by
        intro r hr ho
        exact hdisj ho ((hready r).mp hr).1
      rw [kahnLoop]
      simp only [hnil, if_false, hrne]
      apply ih
      · -- fewer keys remain
        have hlt : (remaining.filter
            (fun k => k ∉ sortKeys (remaining.filter (fun k => inDegree k = 0)))).length
              < remaining.length := by
          rw [List.length_filter_lt_length_iff_exists]
          exact ⟨m, hm, by simpa using (hready m).mpr ⟨hm, hm0⟩⟩
        omega
      · -- the keys are those in the order and those remaining
        have hfe : remaining.filter
            (fun k => k ∉ sortKeys (remaining.filter (fun k => inDegree k = 0)))
              = remaining.filter (fun k => !decide (inDegree k = 0)) := by
          apply List.filter_congr
          intro k hk
          have := hready k
          by_cases h0 : inDegree k = 0 <;> simp [this, hk, h0]
        rw [hfe, List.append_assoc]
        refine List.Perm.trans ?_ hperm
        refine List.Perm.append_left order ?_
        refine List.Perm.trans (List.Perm.append_right _ (sortKeys_perm _)) ?_
        exact List.filter_append_perm _ remaining
      · -- the in-degree table counts the dependencies not in the order
        intro k
        rw [decrementAll_apply, count_dependents_flatten edges hw.1, hdeg k]
        exact (pending_after_round _ order _ (List.nodup_dedup _) hrn hrdisj).symm
      · -- dependencies come first
        intro k hk d hd
        rcases List.mem_append.mp hk with hko | hkr
        · have hdo := hord k hko d hd
          have hdmem : d ∈ order := by
            by_contra hcon
            have h1 : order.indexOf d = order.length := List.indexOf_eq_length.mpr hcon
            have h2 : order.indexOf k < order.length := List.indexOf_lt_length.mpr hko
            omega
          rw [List.indexOf_append_of_mem hdmem, List.indexOf_append_of_mem hko]
          exact hdo
        · have hk0 : inDegree k = 0 := ((hready k).mp hkr).2
          have hdmem : d ∈ order := hpending k hk0 d hd
          have hkno : k ∉ order := hrdisj k hkr
          rw [List.indexOf_append_of_mem hdmem, List.indexOf_append_of_not_mem hkno]
          have := List.indexOf_lt_length.mpr hdmem
          omega

/-- A numbering of the keys that decreases along every dependency rules out cycles. -/
theorem acyclic_of_rank (edges : Edges) (rank : String → Nat)
    (h : ∀ a b, dependsOn edges a b → rank b < rank a) : Acyclic edges := by
  have key : ∀ a b, Relation.TransGen (dependsOn edges) a b → rank b < rank a := by
    intro a b hab
    induction hab with
    | single h1 => exact h _ _ h1
    | tail _ h2 ih => exact lt_trans (h _ _ h2) ih
  intro k hk
  exact lt_irrefl _ (key k k hk)

theorem forall₂_mem_right {α β : Type} {R : α → β → Prop} {l1 : List α} {l2 : List β}
    (h : List.Forall₂ R l1 l2) {b : β} (hb : b ∈ l2) : ∃ a ∈ l1, R a b := by
  induction h with
  | nil => simp at hb
  | cons hab _ ih =>
    rcases List.mem_cons.mp hb with rfl | hb
    · exact ⟨_, List.mem_cons_self _ _, hab⟩
    · obtain ⟨a, ha, hr⟩ := ih hb
      exact ⟨a, List.mem_cons_of_mem _ ha, hr⟩

theorem findLoop_entries (T : Types) (tasks rest : Tasks) (edges : Edges)
    (h : findLoop T tasks rest = .ok edges) :
    edges.map Prod.fst = rest.map Prod.fst
      ∧ ∀ k ds, (k, ds) ∈ edges → ∃ t, (k, t) ∈ rest ∧ taskEdges T tasks t = .ok ds := by
  induction rest generalizing edges with
  | nil =>
    simp only [findLoop, Except.ok.injEq] at h
    subst h
    simp
  | cons kt rest ih =>
    obtain ⟨k0, t0⟩ := kt
    rw [findLoop] at h
    cases h0 : taskEdges T tasks t0 with
    | error e => rw [h0] at h; simp at h
    | ok keys0 =>
      rw [h0] at h
      cases hr : findLoop T tasks rest with
      | error e => rw [hr] at h; simp at h
      | ok edges0 =>
        rw [hr] at h
        simp only [Except.ok.injEq] at h
        subst h
        obtain ⟨ih1, ih2⟩ := ih edges0 hr
        refine ⟨by simp [ih1], ?_⟩
        intro k ds hm
        rcases List.mem_cons.mp hm with heq | hm2
        · obtain ⟨rfl, rfl⟩ := Prod.mk.inj heq
          exact ⟨t0, List.mem_cons_self _ _, h0⟩
        · obtain ⟨t, ht, hte⟩ := ih2 k ds hm2
          exact ⟨t, List.mem_cons_of_mem _ ht, hte⟩

theorem taskEdges_keys (T : Types) (tasks : Tasks) (t : StructPtr) (ds : List String)
    (h : taskEdges T tasks t = .ok ds) : ∀ d ∈ ds, d ∈ tasks.map Prod.fst := by
  intro d hd
  unfold taskEdges at h
  cases hdep : taskDependencies T tasks t with
  | error e => rw [hdep] at h; simp at h
  | ok deps =>
    rw [hdep] at h
    obtain ⟨dep, _, hl⟩ := forall₂_mem_right (dependencyKeys_ok _ _ _ h) hd
    obtain ⟨u, hu, _⟩ := taskToId_lookup tasks dep.ref d hl
    exact List.mem_map.mpr ⟨(d, u), hu, rfl⟩

/-- A mapping returned by `FindTaskDependencies` for a universe with distinct keys has
the keys of the universe, each once, and only keys of the universe as dependencies. -/
theorem FindTaskDependencies_wellFormed (T : Types) (tasks : Tasks) (edges : Edges)
    (hn : (tasks.map Prod.fst).Nodup) (h : FindTaskDependencies T tasks = .ok edges) :
    WellFormed edges := by
  obtain ⟨h1, h2⟩ := findLoop_entries T tasks tasks edges h
  refine ⟨by rw [h1]; exact hn, ?_⟩
  intro k ds hm d hd
  obtain ⟨t, _, hte⟩ := h2 k ds hm
  rw [h1]
  exact taskEdges_keys T tasks t ds hte d hd

/-! ## The claim about the execution order -/

/-- C3: for every dependency mapping that is the output of `FindTaskDependencies` (a map
whose dependency keys are keys of the map) and has no cycle, the sort returns an order
that contains every key exactly once and places every dependency strictly before each of
its dependents; a mapping returned by `FindTaskDependencies` for a universe with distinct
keys is such a map; and the mapping `A: [B], B: [C], C: []` yields the order
`[C, B, A]`. -/
theorem TopologicalSort_order :
    (∀ edges : Edges, WellFormed edges → Acyclic edges →
        ∃ order, TopologicalSort edges = .ok order
          ∧ order.Perm (edges.map Prod.fst) ∧ order.Nodup
          ∧ ∀ k ds, (k, ds) ∈ edges → ∀ d ∈ ds, order.indexOf d < order.indexOf k)
    ∧ (∀ (T : Types) (tasks : Tasks) (edges : Edges), (tasks.map Prod.fst).Nodup →
        FindTaskDependencies T tasks = .ok edges → WellFormed edges)
    ∧ TopologicalSort [("A", ["B"]), ("B", ["C"]), ("C", [])] = .ok ["C", "B", "A"] := by
  refine ⟨?_, FindTaskDependencies_wellFormed, rfl⟩
  intro edges hw hacyc
  obtain ⟨final, hfin, hperm, hord⟩ :=
    kahnLoop_acyclic edges hw hacyc edges.length (fun k => (dependenciesOf edges k).length)
      (edges.map Prod.fst) [] (by simp) (by simp) (by intro k; simp) (by simp)
  refine ⟨final, hfin, hperm, hperm.nodup_iff.mpr hw.1, ?_⟩
  intro k ds hm d hd
  have hk : k ∈ final := hperm.mem_iff.mpr (List.mem_map.mpr ⟨(k, ds), hm, rfl⟩)
  exact hord k hk d ((mem_dependenciesOf edges hw.1 k d).mpr ⟨ds, hm, hd⟩)

/-- C3 at the mapping `A: [B], B: [C], C: []`, which is well formed and has no cycle. -/
theorem TopologicalSort_order_witness :
    ∃ order, TopologicalSort [("A", ["B"]), ("B", ["C"]), ("C", [])] = .ok order
      ∧ order.Perm ["A", "B", "C"] ∧ order.Nodup
      ∧ ∀ k ds, (k, ds) ∈ [("A", ["B"]), ("B", ["C"]), ("C", ([] : List String))] →
          ∀ d ∈ ds, order.indexOf d < order.indexOf k :=
  TopologicalSort_order.1 [("A", ["B"]), ("B", ["C"]), ("C", [])]
    ⟨by decide, by
      intro k ds hm d hd
      simp only [List.mem_cons, Prod.mk.injEq, List.mem_singleton, List.not_mem_nil,
        or_false] at hm
      rcases hm with ⟨rfl, rfl⟩ | ⟨rfl, rfl⟩ | ⟨rfl, rfl⟩ <;> simp_all⟩
    (acyclic_of_rank _ (fun k => if k = "A" then 2 else if k = "B" then 1 else 0) (by
      rintro a b ⟨ds, hm, hd⟩
      simp only [List.mem_cons, Prod.mk.injEq, List.mem_singleton, List.not_mem_nil,
        or_false] at hm
      rcases hm with ⟨rfl, rfl⟩ | ⟨rfl, rfl⟩ | ⟨rfl, rfl⟩ <;> simp_all))

/-! ## The claims about SSH key tasks -/

/-- C6: for a describe response without error that holds exactly one key pair `k`,
`SSHKey.Find` returns, without error, an actual key with the name and fingerprint of `k`,
whose public key is the expected one when the string values of the two fingerprints are
equal, and nil otherwise.  This holds for every reading `StringValue` of a `*string`, in
particular for the one that reads nil as the empty string. -/
theorem SSHKey_Find_single (StringValue : Option String → String) (e : SSHKey)
    (k : KeyPairInfo) :
    SSHKey.Find StringValue e (some ⟨[k]⟩) none
      = .ok (some
          { Name := k.KeyName
            PublicKey :=
              if StringValue k.KeyFingerprint = StringValue e.KeyFingerprint then e.PublicKey
              else none
            KeyFingerprint := k.KeyFingerprint }) := by
  unfold SSHKey.Find
  by_cases h : StringValue k.KeyFingerprint = StringValue e.KeyFingerprint
  · simp only [h, if_true]
  · simp only [h, if_false]

/-- C7: with a non-nil `changes`, `SSHKey.CheckChanges` returns the error
`CannotChangeField("Name")` exactly when `a` is non-nil and `changes.Name` is non-nil, and
nil in every other case; the fields `PublicKey` and `KeyFingerprint` of `changes` never
matter, and with a nil `a` the result is nil whatever `changes` is. -/
theorem SSHKey_CheckChanges_name (a e : Option SSHKey) (changes : SSHKey) :
    (SSHKey.CheckChanges a e (some changes) = .CannotChangeField "Name"
        ↔ a ≠ none ∧ changes.Name ≠ none)
    ∧ (SSHKey.CheckChanges a e (some changes) = .nil ↔ ¬ (a ≠ none ∧ changes.Name ≠ none))
    ∧ (∀ pk fp, SSHKey.CheckChanges a e (some { changes with PublicKey := pk, KeyFingerprint := fp })
        = SSHKey.CheckChanges a e (some changes))
    ∧ (∀ c, SSHKey.CheckChanges none e c = .nil) := by
  refine ⟨?_, ?_, ?_, ?_⟩
  · cases a <;> cases hn : changes.Name <;> simp [SSHKey.CheckChanges, hn]
  · cases a <;> cases hn : changes.Name <;> simp [SSHKey.CheckChanges, hn]
  · intro pk fp
    cases a <;> simp [SSHKey.CheckChanges]
  · intro c
    rfl

/-! ### Colon-separated hexadecimal -/

theorem hexDigit_ne_colon (n : Nat) (h : n < 16) : hexDigit n ≠ ':' := by
  interval_cases n <;> decide

theorem hexByte_filter (b : Byte) : (hexByte b).filter (fun c => c ≠ ':') = hexByte b := by
  have h1 : hexDigit (b.val / 16) ≠ ':' := hexDigit_ne_colon _ (by omega)
  have h2 : hexDigit (b.val % 16) ≠ ':' := hexDigit_ne_colon _ (by omega)
  simp [hexByte, h1, h2]

theorem colonSeparatedLoop_pair_even (h l : Char) (rest : List Char) (i : Nat)
    (buf : List Char) (he : i % 2 = 0) (h0 : i ≠ 0) :
    colonSeparatedLoop (h :: l :: rest) i buf
      = colonSeparatedLoop rest (i + 2) (buf ++ [':', h, l]) := by
  rw [colonSeparatedLoop, if_pos ⟨he, h0⟩, colonSeparatedLoop, if_neg (by omega)]
  simp

theorem colonSeparatedLoop_pair_zero (h l : Char) (rest : List Char) :
    colonSeparatedLoop (h :: l :: rest) 0 [] = colonSeparatedLoop rest 2 [h, l] := by
  rw [colonSeparatedLoop, if_neg (by simp), colonSeparatedLoop, if_neg (by simp)]
  simp

/-- From an even index that is not zero, the loop appends to the buffer a colon and the
two digits for every remaining byte. -/
theorem colonSeparatedLoop_even (data : List Byte) (i : Nat) (buf : List Char)
    (he : i % 2 = 0) (h0 : i ≠ 0) :
    colonSeparatedLoop (sprintfHex data) i buf
      = buf ++ (data.map (fun b => ':' :: hexByte b)).flatten := by
  induction data generalizing i buf with
  | nil => simp [sprintfHex, colonSeparatedLoop]
  | cons b rest ih =>
    have hs : sprintfHex (b :: rest)
        = hexDigit (b.val / 16) :: hexDigit (b.val % 16) :: sprintfHex rest := rfl
    rw [hs, colonSeparatedLoop_pair_even _ _ _ _ _ he h0, ih (i + 2) _ (by omega) (by omega)]
    simp [hexByte]

theorem colonSeparatedLoop_zero (b : Byte) (rest : List Byte) :
    colonSeparatedLoop (sprintfHex (b :: rest)) 0 []
      = hexByte b ++ (rest.map (fun b => ':' :: hexByte b)).flatten := by
  have hs : sprintfHex (b :: rest)
      = hexDigit (b.val / 16) :: hexDigit (b.val % 16) :: sprintfHex rest := rfl
  rw [hs, colonSeparatedLoop_pair_zero, colonSeparatedLoop_even rest 2 _ (by decide) (by decide)]
  simp [hexByte]

theorem intercalate_colon (x : List Char) (xs : List (List Char)) :
    List.intercalate [':'] (x :: xs) = x ++ (xs.map (fun y => ':' :: y)).flatten := by
  induction xs generalizing x with
  | nil => simp [List.intercalate]
  | cons y ys ih =>
    have := ih y
    simp only [List.intercalate, List.intersperse] at this ⊢
    simp only [List.flatten_cons, List.map_cons]
    rw [this]
    simp

theorem join_colon_length (data : List Byte) :
    ((data.map (fun b => ':' :: hexByte b)).flatten).length = 3 * data.length := by
  induction data with
  | nil => rfl
  | cons b rest ih =>
    simp only [List.map_cons, List.flatten_cons, List.length_append, ih, List.length_cons]
    simp [hexByte]
    omega

theorem join_colon_filter (data : List Byte) :
    ((data.map (fun b => ':' :: hexByte b)).flatten).filter (fun c => c ≠ ':')
      = sprintfHex data := by
  induction data with
  | nil => rfl
  | cons b rest ih =>
    simp only [List.map_cons, List.flatten_cons, List.filter_append, ih, sprintfHex]
    rw [List.filter_cons_of_neg (by simp), hexByte_filter]

/-- C9: `colonSeparatedHex data` is the two-digit lowercase hexadecimal encodings of the
bytes, in order, joined by a single colon; its length is `3n - 1` for `n ≥ 1` bytes and
`0` for none; and deleting the colons gives the plain hexadecimal encoding of `data`. -/
theorem colonSeparatedHex_format (data : List Byte) :
    (colonSeparatedHex data).data = List.intercalate [':'] (data.map hexByte)
    ∧ (∀ b ∈ data, hexByte b = [ldigits.getD (b.val / 16) '0', ldigits.getD (b.val % 16) '0']
        ∧ b.val / 16 < ldigits.length ∧ b.val % 16 < ldigits.length)
    ∧ (colonSeparatedHex data).length = (if data.length = 0 then 0 else 3 * data.length - 1)
    ∧ (colonSeparatedHex data).data.filter (fun c => c ≠ ':') = sprintfHex data := by
  cases data with
  | nil => simp [colonSeparatedHex, sprintfHex, colonSeparatedLoop, List.intercalate]
  | cons b rest =>
    have hloop := colonSeparatedLoop_zero b rest
    refine ⟨?_, ?_, ?_, ?_⟩
    · simp only [colonSeparatedHex, hloop, List.map_cons, intercalate_colon, List.map_map]
      rfl
    · intro x _
      refine ⟨rfl, ?_, ?_⟩
      · have := x.isLt
        simp only [ldigits, List.length_cons, List.length_nil]
        omega
      · simp only [ldigits, List.length_cons, List.length_nil]
        omega
    · simp only [colonSeparatedHex, String.length, hloop, List.length_append,
        join_colon_length, List.length_cons]
      simp [hexByte]
      omega
    · simp only [colonSeparatedHex, hloop, List.filter_append, join_colon_filter,
        hexByte_filter]
      rfl

/-- C9 at the bytes `de ad 0f`. -/
theorem colonSeparatedHex_format_witness :
    colonSeparatedHex [0xde, 0xad, 0x0f] = "de:ad:0f"
    ∧ (colonSeparatedHex [0xde, 0xad, 0x0f]).length
        = (if [(0xde : Byte), 0xad, 0x0f].length = 0 then 0
           else 3 * [(0xde : Byte), 0xad, 0x0f].length - 1) :=
  ⟨by decide, (colonSeparatedHex_format [0xde, 0xad, 0x0f]).2.2.1⟩

/-- C10: `parseSSHPublicKey` never returns the "error decoding SSH public key" error.  An
input with fewer than two fields is rejected by the first check with "error parsing SSH
public key"; otherwise the error of decoding the second field is discarded and the bytes
that were decoded are passed to the key parser, whose result decides. -/
theorem parseSSHPublicKey_never_decoding {D E K : Type}
    (DecodeString : String → List Byte × Option D)
    (ParsePublicKey : List Byte → Except E K) (publicKey : String) :
    (∀ pk, parseSSHPublicKey DecodeString ParsePublicKey publicKey ≠ .error (.decoding pk))
    ∧ ((strings.Fields publicKey).length < 2 →
        parseSSHPublicKey DecodeString ParsePublicKey publicKey = .error (.parsing publicKey))
    ∧ (2 ≤ (strings.Fields publicKey).length →
        parseSSHPublicKey DecodeString ParsePublicKey publicKey
          = match ParsePublicKey (DecodeString ((strings.Fields publicKey).getD 1 "")).1 with
            | .error err => .error (.parsingKey err)
            | .ok sshPublicKey => .ok sshPublicKey) := by
  by_cases h : (strings.Fields publicKey).length < 2
  · have hr : parseSSHPublicKey DecodeString ParsePublicKey publicKey
        = .error (.parsing publicKey) := by
      unfold parseSSHPublicKey
      simp only [h, if_true]
    refine ⟨?_, fun _ => hr, fun h2 => absurd h2 (by omega)⟩
    intro pk
    rw [hr]
    simp
  · have hr : parseSSHPublicKey DecodeString ParsePublicKey publicKey
        = match ParsePublicKey (DecodeString ((strings.Fields publicKey).getD 1 "")).1 with
          | .error err => .error (.parsingKey err)
          | .ok sshPublicKey => .ok sshPublicKey := by
      unfold parseSSHPublicKey
      simp only [h, if_false]
    refine ⟨?_, fun h2 => absurd h2 h, fun _ => hr⟩
    intro pk
    rw [hr]
    cases ParsePublicKey (DecodeString ((strings.Fields publicKey).getD 1 "")).1 <;> simp

/-- C10 at a key whose second field is not base64: the decoder's error is dropped and
the key parser's error is what comes back. -/
theorem parseSSHPublicKey_never_decoding_witness :
    parseSSHPublicKey sampleDecode sampleParse "ssh-rsa !!!! user@host"
      = .error (.parsingKey "ssh: short read")
    ∧ ∀ pk, parseSSHPublicKey sampleDecode sampleParse "ssh-rsa !!!! user@host"
        ≠ .error (.decoding pk) :=
  ⟨rfl, (parseSSHPublicKey_never_decoding sampleDecode sampleParse "ssh-rsa !!!! user@host").1⟩

/-! ## The claim about validation -/

theorem violationsMessage_contains (v : String) (vs : List String) (h : v ∈ vs) :
    stringsContains (violationsMessage vs) v := by
  induction vs with
  | nil => simp at h
  | cons x rest ih =>
    cases rest with
    | nil =>
      simp only [List.mem_singleton] at h
      subst h
      exact List.infix_refl _
    | cons y ys =>
      rw [violationsMessage.eq_3 _ _ (by simp)]
      unfold stringsContains
      simp only [String.data_append]
      rcases List.mem_cons.mp h with rfl | h2
      · exact (List.prefix_append _ _).isInfix.trans (List.prefix_append _ _).isInfix
      · exact (ih h2).trans (List.suffix_append _ _).isInfix

/-- C8: for every cluster specification and every list of instance groups without a Node
instance group, `DeepValidate` in strict mode returns an error, and its message contains
"must configure at least one Node InstanceGroup". -/
theorem DeepValidate_no_node (c : Cluster) (groups : List InstanceGroup)
    (h : ∀ g ∈ groups, g.Role ≠ .Node) :
    ∃ message, DeepValidateError c groups true = some message
      ∧ stringsContains message "must configure at least one Node InstanceGroup" := by
  have hall : groups.all (fun g => g.Role ≠ .Node) = true := by
    rw [List.all_eq_true]
    intro g hg
    simpa using h g hg
  have hmem : "must configure at least one Node InstanceGroup" ∈ DeepValidate c groups true := by
    unfold DeepValidate
    rw [hall]
    simp
  unfold DeepValidateError
  cases hv : DeepValidate c groups true with
  | nil => rw [hv] at hmem; simp at hmem
  | cons v vs =>
    refine ⟨_, rfl, ?_⟩
    rw [← hv]
    exact violationsMessage_contains _ _ hmem

/-- C8 at the case of the test `TestDeepValidate_NoNodeZones`: one master instance group
in a zone of the cluster. -/
theorem DeepValidate_no_node_witness :
    ∃ message, DeepValidateError ⟨["us-east-1a", "us-east-1b", "us-east-1c"]⟩
        [⟨.Master, ["us-east-1a"]⟩] true = some message
      ∧ stringsContains message "must configure at least one Node InstanceGroup" :=
  DeepValidate_no_node ⟨["us-east-1a", "us-east-1b", "us-east-1c"]⟩ [⟨.Master, ["us-east-1a"]⟩]
    (by decide)

end Kops
